import Mathlib

/-!
# Verification development for `js/util.go` of the JavaScript minifier

Shallow embedding of the literal compactor (`minifyString`, `binaryNumber`,
`octalNumber`) and of the constant-value analyzer (`isFalsy`, `isTruthy`, ...)
together with theorems about them.

Conventions of the embedding:

* a Go `[]byte` is a `List Nat` (`Buf`); every value the code computes for a
  byte is reduced modulo 256 where the Go arithmetic could leave the byte range;
* an index expression `b[k]`, an element assignment and a slice expression are
  *checked*: the model returns `none` where the Go program would panic with an
  index or slice bound out of range;
* loops whose termination is not structural take a fuel argument and return
  `none` when the fuel runs out.
-/

namespace Minify

/-- A Go byte slice. -/
abbrev Buf := List Nat

/-! ## Checked buffer primitives -/

/-- The index expression `b[k]`: `none` models the run-time panic. -/
def rd (b : Buf) (k : Nat) : Option Nat := b[k]?

/-- The assignment `b[k] = v`: `none` models the run-time panic. -/
def wr (b : Buf) (k v : Nat) : Option Buf :=
  if k < b.length then some (b.set k v) else none

/-- The slice expression `b[lo:hi]` (the capacity is the length of `b`). -/
def sliceOf (b : Buf) (lo hi : Nat) : Option Buf :=
  if lo ≤ hi ∧ hi ≤ b.length then some ((b.take hi).drop lo) else none

/-- The builtin `copy(b[j:], src)` on the buffer `b` itself: the bytes of `src`
are read before any byte is written (Go's `copy` is a memmove), the number of
bytes copied is the minimum of the two lengths, and that number is returned
together with the updated buffer. -/
def copyAt (b : Buf) (j : Nat) (src : Buf) : Option (Buf × Nat) :=
  if j ≤ b.length then
    let k := min (b.length - j) src.length
    some (b.take j ++ src.take k ++ b.drop (j + k), k)
  else none

/-! ## `isHexDigit` and `hex.Decode` -/

/-- Source: `isHexDigit`. -/
def isHexDigit (b : Nat) : Bool :=
  (48 ≤ b && b ≤ 57) || (97 ≤ b && b ≤ 102) || (65 ≤ b && b ≤ 70)

/-- Value of one hexadecimal digit, as `encoding/hex` of the Go standard library
computes it for a byte already known to be a hexadecimal digit. -/
def fromHexChar (c : Nat) : Nat :=
  if 48 ≤ c ∧ c ≤ 57 then c - 48
  else if 97 ≤ c ∧ c ≤ 102 then c - 97 + 10
  else if 65 ≤ c ∧ c ≤ 70 then c - 65 + 10
  else 0

/-- The byte `hex.Decode` stores for the two digits `h1 h2`: `(a << 4) | b`. -/
def hexByte (h1 h2 : Nat) : Nat := (16 * fromHexChar h1 + fromHexChar h2) % 256

/-! ## `minifyString` -/

/-- The loop variables of `minifyString`: the buffer (mutated in place), the
read cursor `i`, the write cursor `j` and the start of the pending run. -/
structure ScanState where
  b : Buf
  i : Nat
  j : Nat
  start : Nat
deriving DecidableEq

/-- The condition of the "keep escape sequence" branch, with Go's short-circuit
evaluation: `b[i+2]` is read only when `c == '0'` and `i+2 != len(b)-1`. -/
def keepsEscape (quote : Nat) (b : Buf) (i c : Nat) : Option Bool :=
  (if c = 48 then
      if i + 2 = b.length - 1 then some true
      else (rd b (i + 2)).bind fun d => some (decide (d < 48 ∨ 55 < d))
    else some false).bind fun z =>
  some (z || decide (c = 92 ∨ c = quote ∨ c = 110 ∨ c = 114 ∨ c = 117))

/-- The condition of the "line continuations" branch, with short-circuit
evaluation of the reads behind `c == 0xE2 && i+3 < len(b)-1`. -/
def isLineContinuation (b : Buf) (i c : Nat) : Option Bool :=
  if c = 10 ∨ c = 13 then some true
  else if c = 226 ∧ i + 3 < b.length - 1 then
    (rd b (i + 2)).bind fun d2 =>
      if d2 = 128 then (rd b (i + 3)).bind fun d3 => some (decide (d3 = 168 ∨ d3 = 169))
      else some false
  else some false

/-- The inner `if b[k] == 0 .. else if '\n' .. else if '\r'` of both decoding
branches: the decoded byte `v` stored at `k` is replaced by the letter of its
two-byte escape. -/
def reescape (b : Buf) (k v : Nat) : Option Buf :=
  if v = 0 then wr b k 48
  else if v = 10 then wr b k 110
  else if v = 13 then wr b k 114
  else some b

/-- The branch `c == 'x'`. The result `none` (inside `some`) is the
`i++; continue` path taken when two hexadecimal digits do not follow. -/
def hexEscape (quote : Nat) (b : Buf) (i : Nat) : Option (Option (Buf × Nat)) :=
  if i + 3 < b.length - 1 then
    (rd b (i + 2)).bind fun h1 =>
    if isHexDigit h1 then
      (rd b (i + 3)).bind fun h2 =>
      if isHexDigit h2 then
        (wr b (i + 3) (hexByte h1 h2)).bind fun b1 =>
        (rd b1 (i + 3)).bind fun v =>
        if v = 0 ∨ v = 92 ∨ v = quote ∨ v = 10 ∨ v = 13 then
          (reescape b1 (i + 3) v).bind fun b2 =>
          (wr b2 (i + 2) 92).bind fun b3 => some (some (b3, 2))
        else some (some (b1, 3))
      else some none
    else some none
  else some none

/-- The digit-collecting part of the branch `'0' <= c && c <= '7'`: the decoded
value `num` (a Go `byte`) and the number `n` of digits consumed. -/
def octalValue (b : Buf) (i c : Nat) : Option (Nat × Nat) :=
  let num := (c - 48) % 256
  if i + 2 < b.length - 1 then
    (rd b (i + 2)).bind fun d2 =>
    if 48 ≤ d2 ∧ d2 ≤ 55 then
      let num2 := (num * 8 + (d2 - 48) % 256) % 256
      if num2 < 32 ∧ i + 3 < b.length - 1 then
        (rd b (i + 3)).bind fun d3 =>
        if 48 ≤ d3 ∧ d3 ≤ 55 then some ((num2 * 8 + (d3 - 48) % 256) % 256, 3)
        else some (num2, 2)
      else some (num2, 2)
    else some (num, 1)
  else some (num, 1)

/-- The branch `'0' <= c && c <= '7'` (legacy octal escapes). -/
def octalEscape (quote : Nat) (b : Buf) (i c : Nat) : Option (Buf × Nat) :=
  (octalValue b i c).bind fun r =>
  (wr b (i + r.2) r.1).bind fun b1 =>
  if r.1 = 0 ∨ r.1 = 92 ∨ r.1 = quote ∨ r.1 = 10 ∨ r.1 = 13 then
    (reescape b1 (i + r.2) r.1).bind fun b2 =>
    (wr b2 (i + (r.2 - 1)) 92).bind fun b3 => some (b3, r.2 - 1)
  else some (b1, r.2)

/-- The `if / else if` chain that follows `n := 1`: the buffer after the in-place
rewrite of the escape at `i` and the width `n`; `some none` is `i++; continue`. -/
def rewriteEscape (quote : Nat) (b : Buf) (i c : Nat) : Option (Option (Buf × Nat)) :=
  (isLineContinuation b i c).bind fun lc =>
  if lc then
    if c = 226 then some (some (b, 4))
    else if c = 13 ∧ i + 2 < b.length - 1 then
      (rd b (i + 2)).bind fun d => if d = 10 then some (some (b, 3)) else some (some (b, 2))
    else some (some (b, 2))
  else if c = 120 then hexEscape quote b i
  else if 48 ≤ c ∧ c ≤ 55 then (octalEscape quote b i c).map some
  else if c = 116 then (wr b (i + 1) 9).map fun b1 => some (b1, 1)
  else if c = 102 then (wr b (i + 1) 12).map fun b1 => some (b1, 1)
  else if c = 118 then (wr b (i + 1) 11).map fun b1 => some (b1, 1)
  else if c = 98 then (wr b (i + 1) 8).map fun b1 => some (b1, 1)
  else some (some (b, 1))

/-- The compaction at the end of the loop body ("remove unnecessary escape
character"), followed by `start = i + n`, `i += n - 1` and the `i++` of the
`for` statement; the last two together set `i` to `i + n`. -/
def compact (s : ScanState) (n : Nat) : Option ScanState :=
  if s.start ≠ 0 then
    (sliceOf s.b s.start s.i).bind fun src =>
    (sliceOf s.b s.j s.b.length).bind fun _ =>
    (copyAt s.b s.j src).bind fun r =>
    some { b := r.1, i := s.i + n, j := s.j + r.2, start := s.i + n }
  else some { b := s.b, i := s.i + n, j := s.i, start := s.i + n }

/-- One iteration of the `for` loop of `minifyString`, the `i++` included. -/
def escapeStep (quote : Nat) (s : ScanState) : Option ScanState :=
  (rd s.b s.i).bind fun c0 =>
  if c0 ≠ 92 then some { s with i := s.i + 1 }
  else
    (rd s.b (s.i + 1)).bind fun c =>
    (keepsEscape quote s.b s.i c).bind fun keep =>
    if keep then some { s with i := s.i + 2 }
    else
      (rewriteEscape quote s.b s.i c).bind fun r =>
      match r with
      | none => some { s with i := s.i + 2 }
      | some (b1, n) => compact { s with b := b1 } n

/-- The `for i := 1; i+1 < len(b)-1; i++` loop, with fuel. -/
def scanLoop (quote : Nat) : Nat → ScanState → Option ScanState
  | 0, s => if s.i + 1 < s.b.length - 1 then none else some s
  | fuel + 1, s =>
    if s.i + 1 < s.b.length - 1 then (escapeStep quote s).bind (scanLoop quote fuel)
    else some s

/-- Source: `minifyString`, with an explicit fuel for the scan loop. -/
def minifyStringFuel (fuel : Nat) (b : Buf) : Option Buf :=
  if b.length < 3 then some b
  else
    (rd b 0).bind fun quote =>
    (scanLoop quote fuel { b := b, i := 1, j := 0, start := 0 }).bind fun s =>
    if s.start ≠ 0 then
      (sliceOf s.b s.start s.b.length).bind fun src =>
      (sliceOf s.b s.j s.b.length).bind fun _ =>
      (copyAt s.b s.j src).bind fun r =>
      sliceOf r.1 0 (s.j + r.2)
    else some s.b

/-- Source: `minifyString`. Two units of fuel per byte are enough for the scan
loop (see `minifyString_total`). -/
def minifyString (b : Buf) : Option Buf := minifyStringFuel (2 * b.length) b


/-! ## `binaryNumber` and `octalNumber` -/

/-- Two's-complement wrap-around of a Go `int64` result. -/
def wrapInt64 (x : Int) : Int :=
  (x + 9223372036854775808) % 18446744073709551616 - 9223372036854775808

/-- The loop `for _, c := range ds { n *= base; n += int64(c - '0') }` started
at `n = 0`: `c - '0'` is byte arithmetic, both updates are `int64` arithmetic. -/
def accumulate (base : Int) (ds : Buf) : Int :=
  ds.foldl (fun n c => wrapInt64 (wrapInt64 (n * base) + (((c + 256 - 48) % 256 : Nat) : Int))) 0

/-- Modelled from the spec: `strconv.LenInt` of the external parse library, the
"computed digit count" of the value, i.e. the number of decimal digits of `i`
(of its absolute value when negative). -/
def LenInt (i : Int) : Nat :=
  if i = -9223372036854775808 then 19
  else
    let a := if i < 0 then -i else i
    if a < 10 then 1
    else if a < 100 then 2
    else if a < 1000 then 3
    else if a < 10000 then 4
    else if a < 100000 then 5
    else if a < 1000000 then 6
    else if a < 10000000 then 7
    else if a < 100000000 then 8
    else if a < 1000000000 then 9
    else if a < 10000000000 then 10
    else if a < 100000000000 then 11
    else if a < 1000000000000 then 12
    else if a < 10000000000000 then 13
    else if a < 100000000000000 then 14
    else if a < 1000000000000000 then 15
    else if a < 10000000000000000 then 16
    else if a < 100000000000000000 then 17
    else if a < 1000000000000000000 then 18
    else 19

/-- The loop `for 0 <= i { b[i] = byte('0' + n%10); n /= 10; i-- }`; the first
argument is `i + 1`. Go's `%` and `/` truncate towards zero. -/
def writeDecimal : Nat → Buf → Int → Option Buf
  | 0, b, _ => some b
  | k + 1, b, n =>
    (wr b k ((48 + Int.tmod n 10) % 256).toNat).bind fun b1 =>
      writeDecimal k b1 (Int.tdiv n 10)

/-- The body of `binaryNumber` between its guard and its `return`: the buffer
that is handed to `minify.Number`. -/
def binaryDigits (b : Buf) : Option Buf :=
  (sliceOf b 2 b.length).bind fun ds =>
  let n := accumulate 2 ds
  (sliceOf b 0 (LenInt n)).bind fun b1 => writeDecimal (LenInt n) b1 n

/-- Source: `binaryNumber`. The external formatter `minify.Number` is the
parameter `Number`. -/
def binaryNumber (Number : Buf → Int → Buf) (b : Buf) : Option Buf :=
  if b.length ≤ 2 ∨ b.length > 65 then some b
  else (binaryDigits b).map fun d => Number d 0

/-- The body of `octalNumber` between its guard and its `return`. -/
def octalDigits (b : Buf) : Option Buf :=
  (sliceOf b 2 b.length).bind fun ds =>
  let n := accumulate 8 ds
  (sliceOf b 0 (LenInt n)).bind fun b1 => writeDecimal (LenInt n) b1 n

/-- Source: `octalNumber`. -/
def octalNumber (Number : Buf → Int → Buf) (b : Buf) : Option Buf :=
  if b.length ≤ 2 ∨ b.length > 23 then some b
  else (octalDigits b).map fun d => Number d 0

/-! ### Reference notions for the radix converters -/

/-- The mathematical value of a string of ASCII digits in the given base, most
significant digit first. -/
def digitsValue (base : Nat) (ds : Buf) : Nat :=
  Nat.ofDigits base ((ds.map fun c => c - 48).reverse)

/-- The canonical decimal representation of a natural number as ASCII bytes:
most significant digit first, no leading zeros, `"0"` for zero. -/
def decimalRepr (v : Nat) : Buf :=
  if v = 0 then [48] else ((Nat.digits 10 v).reverse).map fun d => d + 48

/-! ## The syntax tree read by the constant-value analyzer

The tree is built by the external parser (`parse/v2/js`); only what `util.go`
inspects is represented. -/

/-- The token kinds `js.TokenType` that `util.go` mentions; and a few of the
other kinds the lexer produces. -/
inductive TokenType
  | PostIncrToken | PostDecrToken | PreIncrToken | PreDecrToken
  | NotToken | BitNotToken | TypeofToken | VoidToken | DeleteToken | AwaitToken
  | AddToken | SubToken | MulToken | DivToken | ModToken | ExpToken
  | EqToken | MulEqToken | DivEqToken | ModEqToken | ExpEqToken | AddEqToken | SubEqToken
  | LtLtEqToken | GtGtEqToken | GtGtGtEqToken | BitAndEqToken | BitXorEqToken | BitOrEqToken
  | LtLtToken | GtGtToken | GtGtGtToken
  | LtToken | LtEqToken | GtToken | GtEqToken | InToken | InstanceofToken
  | EqEqToken | NotEqToken | EqEqEqToken | NotEqEqToken
  | BitAndToken | BitXorToken | BitOrToken | AndToken | OrToken | NullishToken | CommaToken
  | TrueToken | FalseToken | NullToken | StringToken
  | DecimalToken | BinaryToken | OctalToken | HexadecimalToken | BigIntToken
  | IdentifierToken | RegExpToken | TemplateToken | ErrorToken
deriving DecidableEq

/-- The expression nodes `js.IExpr`. `nil` is the nil interface value; the
fields of a node that `util.go` never reads are left out. `NewExpr.hasArgs`
stands for `Args != nil`, and a `TemplateExpr` without tag has `Tag = nil`. -/
inductive IExpr
  | nil
  | VarRef (ref : Nat)
  | LiteralExpr (TokenType : TokenType) (Data : Buf)
  | ArrayExpr
  | ObjectExpr
  | FuncDecl
  | ClassDecl
  | UnaryExpr (Op : TokenType) (X : IExpr)
  | BinaryExpr (Op : TokenType) (X Y : IExpr)
  | NewExpr (X : IExpr) (hasArgs : Bool)
  | TemplateExpr (Tag : IExpr)
  | DotExpr (X : IExpr)
  | IndexExpr (X Y : IExpr)
  | NewTargetExpr
  | ImportMetaExpr
  | CallExpr (X : IExpr)
  | OptChainExpr (X Y : IExpr)
  | CondExpr (Cond X Y : IExpr)
  | YieldExpr (X : IExpr)
  | ArrowFunc
  | GroupExpr (X : IExpr)
  | OtherExpr

/-- The minifier object: of its fields only `m.ast` is read, and only through
`ref.Name(m.ast)`, the name bytes of a variable reference. -/
structure jsMinifier where
  Name : Nat → Buf

/-- Modelled from the spec: the package-level `undefinedBytes` (declared outside
`util.go`), the bytes of the identifier `undefined`. -/
def undefinedBytes : Buf := [117, 110, 100, 101, 102, 105, 110, 101, 100]

/-- Source: `jsMinifier.isUndefined`. -/
def isUndefined (m : jsMinifier) (i : IExpr) : Bool :=
  match i with
  | .VarRef ref => decide (m.Name ref = undefinedBytes)
  | .UnaryExpr op _ => decide (op = TokenType.VoidToken)
  | _ => false

/-- The `for isGroup || isUnary && unary.Op == js.NotToken` loop of `isFalsy`:
the final `negated` flag and the expression left when the loop exits. The
loop descends into a proper sub-expression at each turn. -/
def peelNot : Bool → IExpr → Bool × IExpr
  | negated, .GroupExpr x => peelNot negated x
  | negated, .UnaryExpr op x =>
    if op = TokenType.NotToken then peelNot (!negated) x else (negated, .UnaryExpr op x)
  | negated, i => (negated, i)

/-- Source: `jsMinifier.isFalsy`; the result is `(falsy, known)`. -/
def isFalsy (m : jsMinifier) (i : IExpr) : Bool × Bool :=
  let r := peelNot false i
  let negated := r.1
  match r.2 with
  | .LiteralExpr tt d =>
    if tt = .FalseToken ∨ tt = .NullToken ∨
        (tt = .StringToken ∧ d.length = 0) ∨
        (tt = .DecimalToken ∧ ((d.length = 1 ∧ d[0]? = some 48) ∨
          (d.length = 2 ∧ d[0]? = some 46 ∧ d[1]? = some 48))) ∨
        ((tt = .BinaryToken ∨ tt = .OctalToken ∨ tt = .HexadecimalToken) ∧
          d.length = 3 ∧ d[2]? = some 48) ∨
        (tt = .BigIntToken ∧ d.length = 2 ∧ d[0]? = some 48) then
      (!negated, true)
    else if tt = .TrueToken ∨ tt = .StringToken ∨ tt = .DecimalToken ∨ tt = .BinaryToken ∨
        tt = .OctalToken ∨ tt = .HexadecimalToken ∨ tt = .BigIntToken then
      (negated, true)
    else (false, false)
  | e => if isUndefined m e then (!negated, true) else (false, false)

/-- Source: `jsMinifier.isTruthy`. -/
def isTruthy (m : jsMinifier) (i : IExpr) : Bool × Bool :=
  let r := isFalsy m i
  if r.2 then (!r.1, true) else (false, false)

/-- The expression `e` under `k` logical-NOT operators. -/
def notChain : Nat → IExpr → IExpr
  | 0, e => e
  | k + 1, e => .UnaryExpr .NotToken (notChain k e)

/-! ## The precedence model -/

/-- Modelled from the spec: the type `js.OpPrec` of the external parser, of
which `util.go` uses the levels below, listed from the lowest to the highest
binding strength: `Expr < Assign < Coalesce < Or < And < BitOr < BitXor <
BitAnd < Equals < Compare < Shift < Add < Mul < Exp < Unary < Update < LHS <
Member < Primary`. -/
inductive OpPrec
  | OpExpr | OpAssign | OpCoalesce | OpOr | OpAnd | OpBitOr | OpBitXor | OpBitAnd
  | OpEquals | OpCompare | OpShift | OpAdd | OpMul | OpExp | OpUnary | OpUpdate
  | OpLHS | OpMember | OpPrimary
deriving DecidableEq

/-- The rank of a precedence level: the value of the Go constant, `OpExpr`
being the zero value. -/
def OpPrec.rank : OpPrec → Nat
  | .OpExpr => 0 | .OpAssign => 1 | .OpCoalesce => 2 | .OpOr => 3 | .OpAnd => 4
  | .OpBitOr => 5 | .OpBitXor => 6 | .OpBitAnd => 7 | .OpEquals => 8 | .OpCompare => 9
  | .OpShift => 10 | .OpAdd => 11 | .OpMul => 12 | .OpExp => 13 | .OpUnary => 14
  | .OpUpdate => 15 | .OpLHS => 16 | .OpMember => 17 | .OpPrimary => 18

/-- A Go `map[js.TokenType]js.OpPrec` literal: its entries in source order (the
keys of a map literal are distinct). -/
abbrev PrecMap := List (TokenType × OpPrec)

/-- The index expression `m[op]` on a map: the zero value `OpExpr` for a key
that is not in the map. -/
def PrecMap.get (m : PrecMap) (op : TokenType) : OpPrec :=
  (m.lookup op).getD .OpExpr

/-- The set of keys of a map, in source order. -/
def PrecMap.keys (m : PrecMap) : List TokenType := m.map Prod.fst

/-- Source: `unaryOpPrecMap`. -/
def unaryOpPrecMap : PrecMap :=
  [(.PostIncrToken, .OpUpdate), (.PostDecrToken, .OpUpdate),
   (.PreIncrToken, .OpUpdate), (.PreDecrToken, .OpUpdate),
   (.NotToken, .OpUnary), (.BitNotToken, .OpUnary), (.TypeofToken, .OpUnary),
   (.VoidToken, .OpUnary), (.DeleteToken, .OpUnary), (.AddToken, .OpUnary),
   (.SubToken, .OpUnary), (.AwaitToken, .OpUnary)]

/-- Source: `binaryOpPrecMap`. -/
def binaryOpPrecMap : PrecMap :=
  [(.EqToken, .OpAssign), (.MulEqToken, .OpAssign), (.DivEqToken, .OpAssign),
   (.ModEqToken, .OpAssign), (.ExpEqToken, .OpAssign), (.AddEqToken, .OpAssign),
   (.SubEqToken, .OpAssign), (.LtLtEqToken, .OpAssign), (.GtGtEqToken, .OpAssign),
   (.GtGtGtEqToken, .OpAssign), (.BitAndEqToken, .OpAssign), (.BitXorEqToken, .OpAssign),
   (.BitOrEqToken, .OpAssign),
   (.ExpToken, .OpExp), (.MulToken, .OpMul), (.DivToken, .OpMul), (.ModToken, .OpMul),
   (.AddToken, .OpAdd), (.SubToken, .OpAdd),
   (.LtLtToken, .OpShift), (.GtGtToken, .OpShift), (.GtGtGtToken, .OpShift),
   (.LtToken, .OpCompare), (.LtEqToken, .OpCompare), (.GtToken, .OpCompare),
   (.GtEqToken, .OpCompare), (.InToken, .OpCompare), (.InstanceofToken, .OpCompare),
   (.EqEqToken, .OpEquals), (.NotEqToken, .OpEquals), (.EqEqEqToken, .OpEquals),
   (.NotEqEqToken, .OpEquals),
   (.BitAndToken, .OpBitAnd), (.BitXorToken, .OpBitXor), (.BitOrToken, .OpBitOr),
   (.AndToken, .OpAnd), (.OrToken, .OpOr), (.NullishToken, .OpCoalesce),
   (.CommaToken, .OpExpr)]

/-- Source: `unaryPrecMap`. -/
def unaryPrecMap : PrecMap :=
  [(.PostIncrToken, .OpLHS), (.PostDecrToken, .OpLHS),
   (.PreIncrToken, .OpUnary), (.PreDecrToken, .OpUnary),
   (.NotToken, .OpUnary), (.BitNotToken, .OpUnary), (.TypeofToken, .OpUnary),
   (.VoidToken, .OpUnary), (.DeleteToken, .OpUnary), (.AddToken, .OpUnary),
   (.SubToken, .OpUnary), (.AwaitToken, .OpUnary)]

/-- Source: `binaryLeftPrecMap`. -/
def binaryLeftPrecMap : PrecMap :=
  [(.EqToken, .OpLHS), (.MulEqToken, .OpLHS), (.DivEqToken, .OpLHS),
   (.ModEqToken, .OpLHS), (.ExpEqToken, .OpLHS), (.AddEqToken, .OpLHS),
   (.SubEqToken, .OpLHS), (.LtLtEqToken, .OpLHS), (.GtGtEqToken, .OpLHS),
   (.GtGtGtEqToken, .OpLHS), (.BitAndEqToken, .OpLHS), (.BitXorEqToken, .OpLHS),
   (.BitOrEqToken, .OpLHS),
   (.ExpToken, .OpUpdate), (.MulToken, .OpMul), (.DivToken, .OpMul), (.ModToken, .OpMul),
   (.AddToken, .OpAdd), (.SubToken, .OpAdd),
   (.LtLtToken, .OpShift), (.GtGtToken, .OpShift), (.GtGtGtToken, .OpShift),
   (.LtToken, .OpCompare), (.LtEqToken, .OpCompare), (.GtToken, .OpCompare),
   (.GtEqToken, .OpCompare), (.InToken, .OpCompare), (.InstanceofToken, .OpCompare),
   (.EqEqToken, .OpEquals), (.NotEqToken, .OpEquals), (.EqEqEqToken, .OpEquals),
   (.NotEqEqToken, .OpEquals),
   (.BitAndToken, .OpBitAnd), (.BitXorToken, .OpBitXor), (.BitOrToken, .OpBitOr),
   (.AndToken, .OpAnd), (.OrToken, .OpOr), (.NullishToken, .OpCoalesce),
   (.CommaToken, .OpExpr)]

/-- Source: `binaryRightPrecMap`. -/
def binaryRightPrecMap : PrecMap :=
  [(.EqToken, .OpAssign), (.MulEqToken, .OpAssign), (.DivEqToken, .OpAssign),
   (.ModEqToken, .OpAssign), (.ExpEqToken, .OpAssign), (.AddEqToken, .OpAssign),
   (.SubEqToken, .OpAssign), (.LtLtEqToken, .OpAssign), (.GtGtEqToken, .OpAssign),
   (.GtGtGtEqToken, .OpAssign), (.BitAndEqToken, .OpAssign), (.BitXorEqToken, .OpAssign),
   (.BitOrEqToken, .OpAssign),
   (.ExpToken, .OpExp), (.MulToken, .OpExp), (.DivToken, .OpExp), (.ModToken, .OpExp),
   (.AddToken, .OpMul), (.SubToken, .OpMul),
   (.LtLtToken, .OpAdd), (.GtGtToken, .OpAdd), (.GtGtGtToken, .OpAdd),
   (.LtToken, .OpShift), (.LtEqToken, .OpShift), (.GtToken, .OpShift),
   (.GtEqToken, .OpShift), (.InToken, .OpShift), (.InstanceofToken, .OpShift),
   (.EqEqToken, .OpCompare), (.NotEqToken, .OpCompare), (.EqEqEqToken, .OpCompare),
   (.NotEqEqToken, .OpCompare),
   (.BitAndToken, .OpCompare), (.BitXorToken, .OpBitAnd), (.BitOrToken, .OpBitXor),
   (.AndToken, .OpAnd), (.OrToken, .OpOr), (.NullishToken, .OpOr),
   (.CommaToken, .OpAssign)]

/-- Source: `exprPrec`. The type switch falls through to `OpExpr` for the nil
interface and for any node type it does not list. -/
def exprPrec : IExpr → OpPrec
  | .VarRef _ => .OpPrimary
  | .LiteralExpr _ _ => .OpPrimary
  | .ArrayExpr => .OpPrimary
  | .ObjectExpr => .OpPrimary
  | .FuncDecl => .OpPrimary
  | .ClassDecl => .OpPrimary
  | .UnaryExpr op _ => unaryOpPrecMap.get op
  | .BinaryExpr op _ _ => binaryOpPrecMap.get op
  | .NewExpr _ hasArgs => if hasArgs then .OpMember else .OpLHS
  | .TemplateExpr tag =>
    match tag with
    | .nil => .OpPrimary
    | _ => .OpMember
  | .DotExpr _ => .OpMember
  | .IndexExpr _ _ => .OpMember
  | .NewTargetExpr => .OpMember
  | .ImportMetaExpr => .OpMember
  | .CallExpr _ => .OpLHS
  | .OptChainExpr _ _ => .OpLHS
  | .CondExpr _ _ _ => .OpAssign
  | .YieldExpr _ => .OpAssign
  | .ArrowFunc => .OpAssign
  | .GroupExpr x => exprPrec x
  | .nil => .OpExpr
  | .OtherExpr => .OpExpr

/-! ## Boolean shapes and expression equality -/

/-- Source: `jsMinifier.isTrue`. -/
def isTrue (_m : jsMinifier) (i : IExpr) : Bool :=
  match i with
  | .LiteralExpr tt _ => decide (tt = .TrueToken)
  | .UnaryExpr op x =>
    if op = .NotToken then
      match x with
      | .LiteralExpr tt data =>
        decide (tt = .DecimalToken ∧ data.length = 1 ∧ data[0]? = some 48)
      | _ => false
    else false
  | _ => false

/-- Source: `jsMinifier.isFalse`. -/
def isFalse (_m : jsMinifier) (i : IExpr) : Bool :=
  match i with
  | .LiteralExpr tt _ => decide (tt = .FalseToken)
  | .UnaryExpr op x =>
    if op = .NotToken then
      match x with
      | .LiteralExpr tt data =>
        decide (tt = .DecimalToken ∧ (data.length ≠ 1 ∨ data[0]? ≠ some 48))
      | _ => false
    else false
  | _ => false

/-- The unwrapping `if group, ok := a.(*js.GroupExpr); ok { a = group.X }` of
`isEqualExpr`: at most one enclosing group is removed. -/
def ungroupOnce : IExpr → IExpr
  | .GroupExpr x => x
  | e => e

/-- Source: `jsMinifier.isEqualExpr`. -/
def isEqualExpr (m : jsMinifier) (a b : IExpr) : Bool :=
  match ungroupOnce a, ungroupOnce b with
  | .VarRef left, .VarRef right => decide (m.Name left = m.Name right)
  | _, _ => false

/-! ## The statement classifier -/

/-- The statement nodes `js.IStmt`: `nil` is the nil interface value, a block
owns the ordered list of its children, and every statement type other than
the four that `util.go` inspects is `OtherStmt`. -/
inductive IStmt
  | nil
  | EmptyStmt
  | BlockStmt (List : List IStmt)
  | ReturnStmt
  | ThrowStmt
  | OtherStmt

mutual
/-- Source: `isEmptyStmt`. -/
def isEmptyStmt : IStmt → Bool
  | .nil => true
  | .EmptyStmt => true
  | .BlockStmt l => isEmptyStmtList l
  | _ => false
/-- The loop `for _, item := range block.List` of `isEmptyStmt`: `false` at the
first child that is not empty, `true` when the list is exhausted. -/
def isEmptyStmtList : List IStmt → Bool
  | [] => true
  | item :: rest => if isEmptyStmt item then isEmptyStmtList rest else false
end

/-- Source: `isReturnThrowStmt`. -/
def isReturnThrowStmt : IStmt → Bool
  | .ReturnStmt => true
  | .ThrowStmt => true
  | _ => false

/-- Source: `hasReturnThrowStmt`. The index `len(block.List)-1` is read only
behind the guard `0 < len(block.List)`. -/
def hasReturnThrowStmt (stmt : IStmt) : Bool :=
  if isReturnThrowStmt stmt then true
  else
    match stmt with
    | .BlockStmt l =>
      if 0 < l.length then
        match l[l.length - 1]? with
        | some last => isReturnThrowStmt last
        | none => false
      else false
    | _ => false

/-! ## Notions used in the proofs -/

/-- A byte that is none of NUL, LF, CR. -/
def safeByte (x : Nat) : Prop := x ≠ 0 ∧ x ≠ 10 ∧ x ≠ 13

/-- What the in-place rewrite of one escape at `i` guarantees about the buffer
`b1` it leaves and the width `n` it reports. -/
structure Rewritten (q : Nat) (b b1 : Buf) (i n : Nat) : Prop where
  len : b1.length = b.length
  width : i + n ≤ b.length - 1
  bytes : ∀ x ∈ b1, x ∈ b ∨ safeByte x
  stall : n = 0 → rd b1 i = some 92 ∧ rd b1 (i + 1) = some q
  frame : ∀ m, m < i ∨ b.length - 1 ≤ m → rd b1 m = rd b m

/-- The loop invariant of the scan: the buffer keeps its length `L`, the
cursors stay ordered, `j ≤ start ≤ i ≤ L - 1`, the read cursor is past the
opening quote, and so is the write cursor once an escape has been rewritten. -/
structure ScanInv (L : Nat) (s : ScanState) : Prop where
  len : s.b.length = L
  js : s.j ≤ s.start
  si : s.start ≤ s.i
  iL : s.i ≤ L - 1
  ipos : 1 ≤ s.i
  jpos : s.start ≠ 0 → 1 ≤ s.j

/-- The variant of the scan loop. An iteration either moves `i` forward, or (an
octal escape decoding to the quote byte, width 0) leaves `i` in place on a
backslash followed by the quote, which the next iteration skips. -/
def scanMeasure (q : Nat) (s : ScanState) : Nat :=
  2 * (s.b.length - s.i) +
    (if rd s.b s.i = some 92 ∧ rd s.b (s.i + 1) = some q then 0 else 1)

/-- The `k` low decimal digits of `n` as ASCII bytes, most significant first,
padded with `'0'`: what `writeDecimal` stores. -/
def decPad : Nat → Nat → Buf
  | 0, _ => []
  | k + 1, n => decPad k (n / 10) ++ [48 + n % 10]

/-! ### Reference semantics of string literals -/

/-- Octal digit test of the reference semantics. -/
def isOctalDigit (c : Nat) : Bool := 48 ≤ c && c ≤ 55

/-- The value of the body of a string literal delimited by `q` under the
ECMAScript escape semantics, byte by byte: `\xHH`, legacy octal escapes (at
most three digits, value at most 255), `\0`, the single-letter escapes, line
continuations and identity escapes. An unescaped quote, LF or CR, a truncated
escape and a malformed `\x` make the body ill-formed (`none`). Unicode escapes
(`\u`), whose value is not a single byte, are outside this byte-level notion
and are rejected as well. The first argument is fuel (one unit per byte). -/
def decodeBody (q : Nat) : Nat → Buf → Option Buf
  | 0, _ => none
  | fuel + 1, l =>
    match l with
    | [] => some []
    | c :: rest =>
      if c = 92 then
        match rest with
        | [] => none
        | e :: r =>
          if e = 120 then
            match r with
            | h1 :: h2 :: r2 =>
              if isHexDigit h1 && isHexDigit h2 then
                (decodeBody q fuel r2).map fun v => hexByte h1 h2 :: v
              else none
            | _ => none
          else if e = 117 then none
          else if e = 10 then decodeBody q fuel r
          else if e = 13 then
            match r with
            | d :: r2 => if d = 10 then decodeBody q fuel r2 else decodeBody q fuel r
            | [] => decodeBody q fuel r
          else if e = 226 then
            match r with
            | d2 :: d3 :: r2 =>
              if d2 = 128 ∧ (d3 = 168 ∨ d3 = 169) then decodeBody q fuel r2
              else (decodeBody q fuel r).map fun v => e :: v
            | _ => (decodeBody q fuel r).map fun v => e :: v
          else if isOctalDigit e then
            match r with
            | d2 :: r2 =>
              if isOctalDigit d2 then
                match r2 with
                | d3 :: r3 =>
                  if e ≤ 51 ∧ isOctalDigit d3 then
                    (decodeBody q fuel r3).map fun v =>
                      ((e - 48) * 64 + (d2 - 48) * 8 + (d3 - 48)) :: v
                  else (decodeBody q fuel r2).map fun v => ((e - 48) * 8 + (d2 - 48)) :: v
                | [] => (decodeBody q fuel r2).map fun v => ((e - 48) * 8 + (d2 - 48)) :: v
              else (decodeBody q fuel r).map fun v => (e - 48) :: v
            | [] => (decodeBody q fuel r).map fun v => (e - 48) :: v
          else if e = 98 then (decodeBody q fuel r).map fun v => 8 :: v
          else if e = 116 then (decodeBody q fuel r).map fun v => 9 :: v
          else if e = 110 then (decodeBody q fuel r).map fun v => 10 :: v
          else if e = 118 then (decodeBody q fuel r).map fun v => 11 :: v
          else if e = 102 then (decodeBody q fuel r).map fun v => 12 :: v
          else if e = 114 then (decodeBody q fuel r).map fun v => 13 :: v
          else (decodeBody q fuel r).map fun v => e :: v
      else if c = q ∨ c = 10 ∨ c = 13 then none
      else (decodeBody q fuel rest).map fun v => c :: v

/-- The value of a whole string-literal buffer: a quote byte (`"` or `'`), a
well-formed body, and the same quote byte. `none` when the buffer is not a
well-formed string literal. -/
def decodeLiteral (b : Buf) : Option Buf :=
  match b with
  | [] => none
  | q :: rest =>
    if (q = 34 ∨ q = 39) ∧ rest.getLast? = some q then
      decodeBody q rest.length rest.dropLast
    else none

/-- The second byte of the two-byte escape of a decoded byte: `0` for NUL, `n`
for LF, `r` for CR (and the byte itself otherwise). -/
def escapeLetter (v : Nat) : Nat :=
  if v = 0 then 48 else if v = 10 then 110 else if v = 13 then 114 else v

/-- The verdict of `isFalsy` under one more logical NOT. -/
def flipVerdict (r : Bool × Bool) : Bool × Bool :=
  if r.2 then (!r.1, true) else (false, false)

mutual
/-- The statements of a tree that are not blocks, reached through any nesting
of blocks, from left to right. -/
def stmtLeaves : IStmt → List IStmt
  | .BlockStmt l => stmtLeavesList l
  | s => [s]
/-- The leaves of the children of a block. -/
def stmtLeavesList : List IStmt → List IStmt
  | [] => []
  | s :: rest => stmtLeaves s ++ stmtLeavesList rest
end

/-- The bytes of the result that the scan has already decided when it stands
in state `s`: the compacted part `b[:j]` followed by the pending run
`b[start:i]` (the whole of `b[:i]` while no escape has been rewritten). -/
def committed (s : ScanState) : Buf :=
  if s.start ≠ 0 then s.b.take s.j ++ (s.b.take s.i).drop s.start else s.b.take s.i

/-- The state of the scan loop after exactly `k` iterations (`none` when the
loop ends earlier or an iteration fails). -/
def scanSteps (q : Nat) : Nat → ScanState → Option ScanState
  | 0, s => some s
  | k + 1, s =>
    if s.i + 1 < s.b.length - 1 then (escapeStep q s).bind (scanSteps q k) else none

/-! ## Lemmas about `minifyString` -/

theorem rd_of_lt {b : Buf} {k : Nat} (h : k < b.length) :
    ∃ v, rd b k = some v ∧ v ∈ b := by
  refine ⟨b[k], ?_, List.getElem_mem h⟩
  simp [rd, List.getElem?_eq_getElem h]

theorem wr_of_lt {b : Buf} {k : Nat} (v : Nat) (h : k < b.length) :
    wr b k v = some (b.set k v) := by
  simp [wr, h]

theorem mem_set_cases {b : Buf} {k v x : Nat} (h : x ∈ b.set k v) : x ∈ b ∨ x = v :=
  List.mem_or_eq_of_mem_set h

theorem rd_set_eq {b : Buf} {k : Nat} (v : Nat) (h : k < b.length) :
    rd (b.set k v) k = some v := by
  simp [rd, h]

theorem rd_set_ne {b : Buf} {k m : Nat} (v : Nat) (h : k ≠ m) :
    rd (b.set k v) m = rd b m := by
  simp [rd, List.getElem?_set_ne h]

example (b : Buf) (k a c : Nat) : (b.set k a).set k c = b.set k c := by simp

theorem keepsEscape_some (q : Nat) (b : Buf) (i c : Nat) (h : i + 1 < b.length - 1) :
    ∃ z, keepsEscape q b i c = some z ∧ (c = q → z = true) := by
  unfold keepsEscape
  by_cases hc : c = 48
  · by_cases he : i + 2 = b.length - 1
    · simp [hc, he]
    · obtain ⟨d, hd, -⟩ := rd_of_lt (show i + 2 < b.length by omega)
      simp [hc, he, hd]
      intro h; simp [h]
  · simp [hc]
    intro h; simp [h]

theorem isLineContinuation_some (b : Buf) (i c : Nat) :
    ∃ z, isLineContinuation b i c = some z := by
  unfold isLineContinuation
  split
  · exact ⟨_, rfl⟩
  · split
    · rename_i h
      obtain ⟨d2, hd2, -⟩ := rd_of_lt (show i + 2 < b.length by omega)
      obtain ⟨d3, hd3, -⟩ := rd_of_lt (show i + 3 < b.length by omega)
      simp only [hd2, hd3, Option.some_bind]
      split <;> exact ⟨_, rfl⟩
    · exact ⟨_, rfl⟩

theorem reescape_spec (b : Buf) (k v : Nat) (h : k < b.length) :
    ∃ b2, reescape b k v = some b2 ∧
      (((v = 0 ∨ v = 10 ∨ v = 13) ∧ ∃ w, safeByte w ∧ b2 = b.set k w) ∨
        (¬ (v = 0 ∨ v = 10 ∨ v = 13) ∧ b2 = b)) := by
  unfold reescape
  by_cases h0 : v = 0
  · exact ⟨b.set k 48, by simp [h0, wr_of_lt _ h], Or.inl ⟨Or.inl h0, 48, by simp [safeByte], rfl⟩⟩
  by_cases h10 : v = 10
  · exact ⟨b.set k 110, by simp [h10, wr_of_lt _ h],
      Or.inl ⟨Or.inr (Or.inl h10), 110, by simp [safeByte], rfl⟩⟩
  by_cases h13 : v = 13
  · exact ⟨b.set k 114, by simp [h13, wr_of_lt _ h],
      Or.inl ⟨Or.inr (Or.inr h13), 114, by simp [safeByte], rfl⟩⟩
  · exact ⟨b, by simp [h0, h10, h13], Or.inr ⟨by simp [h0, h10, h13], rfl⟩⟩

/-- A decoded byte written at `k`, re-escaped where it is dangerous, leaves only
bytes of the old buffer or safe bytes. -/
theorem reescape_after_write (b : Buf) (k v : Nat) (h : k < b.length) :
    ∃ b2, reescape (b.set k v) k v = some b2 ∧ b2.length = b.length ∧
      (∀ m, m ≠ k → rd b2 m = rd b m) ∧
      ((v = 0 ∨ v = 10 ∨ v = 13) → ∃ w, safeByte w ∧ b2 = b.set k w) ∧
      (¬ (v = 0 ∨ v = 10 ∨ v = 13) → b2 = b.set k v) := by
  obtain ⟨b2, hb2, hcase⟩ := reescape_spec (b.set k v) k v (by simpa using h)
  refine ⟨b2, hb2, ?_, ?_, ?_, ?_⟩
  · rcases hcase with ⟨-, w, -, rfl⟩ | ⟨-, rfl⟩ <;> simp
  · intro m hm
    rcases hcase with ⟨-, w, -, rfl⟩ | ⟨-, rfl⟩
    · simp [rd, List.getElem?_set_ne (Ne.symm hm)]
    · simp [rd, List.getElem?_set_ne (Ne.symm hm)]
  · intro hv
    rcases hcase with ⟨-, w, hw, rfl⟩ | ⟨hn, -⟩
    · exact ⟨w, hw, by simp⟩
    · exact absurd hv hn
  · intro hv
    rcases hcase with ⟨hn, -⟩ | ⟨-, rfl⟩
    · exact absurd hn hv
    · rfl

theorem hexEscape_spec (q : Nat) (b : Buf) (i : Nat) :
    ∃ r, hexEscape q b i = some r ∧ ∀ b1 n, r = some (b1, n) → Rewritten q b b1 i n := by
  unfold hexEscape
  by_cases hb : i + 3 < b.length - 1
  swap
  · exact ⟨none, by simp [hb], by simp⟩
  obtain ⟨h1, hh1, -⟩ := rd_of_lt (show i + 2 < b.length by omega)
  obtain ⟨h2, hh2, -⟩ := rd_of_lt (show i + 3 < b.length by omega)
  simp only [hb, if_true, hh1, hh2, Option.some_bind]
  by_cases hx1 : isHexDigit h1 = true
  swap
  · exact ⟨none, by simp [hx1], by simp⟩
  by_cases hx2 : isHexDigit h2 = true
  swap
  · exact ⟨none, by simp [hx1, hx2], by simp⟩
  have hlt : i + 3 < b.length := by omega
  simp only [hx1, hx2, if_true, wr_of_lt _ hlt, Option.some_bind, rd_set_eq _ hlt]
  obtain ⟨b2, hb2, hlen, hframe, hdanger, hplain⟩ := reescape_after_write b (i + 3) (hexByte h1 h2) hlt
  by_cases hd : hexByte h1 h2 = 0 ∨ hexByte h1 h2 = 92 ∨ hexByte h1 h2 = q ∨
      hexByte h1 h2 = 10 ∨ hexByte h1 h2 = 13
  · have hlt2 : i + 2 < b2.length := by omega
    refine ⟨some (b2.set (i + 2) 92, 2), by simp [hd, hb2, wr_of_lt _ hlt2], ?_⟩
    intro b1 n hr
    simp only [Option.some.injEq, Prod.mk.injEq] at hr
    obtain ⟨rfl, rfl⟩ := hr
    refine ⟨by simp [hlen], by omega, ?_, by omega,
      fun m hm => by rw [rd_set_ne _ (by omega), hframe m (by omega)]⟩
    intro x hx
    rcases mem_set_cases hx with hx | rfl
    · by_cases hv : hexByte h1 h2 = 0 ∨ hexByte h1 h2 = 10 ∨ hexByte h1 h2 = 13
      · obtain ⟨w, hw, rfl⟩ := hdanger hv
        rcases mem_set_cases hx with hx | rfl
        · exact Or.inl hx
        · exact Or.inr hw
      · rw [hplain hv] at hx
        rcases mem_set_cases hx with hx | rfl
        · exact Or.inl hx
        · exact Or.inr ⟨fun h => hv (Or.inl h), fun h => hv (Or.inr (Or.inl h)),
            fun h => hv (Or.inr (Or.inr h))⟩
    · exact Or.inr (by simp [safeByte])
  · refine ⟨some (b.set (i + 3) (hexByte h1 h2), 3), by simp [hd], ?_⟩
    intro b1 n hr
    simp only [Option.some.injEq, Prod.mk.injEq] at hr
    obtain ⟨rfl, rfl⟩ := hr
    refine ⟨by simp, by omega, ?_, by omega, fun m hm => rd_set_ne _ (by omega)⟩
    intro x hx
    rcases mem_set_cases hx with hx | rfl
    · exact Or.inl hx
    · exact Or.inr ⟨fun h => hd (Or.inl h), fun h => hd (by simp [h]), fun h => hd (by simp [h])⟩

theorem keepsEscape_false {q : Nat} {b : Buf} {i c : Nat}
    (hk : keepsEscape q b i c = some false) :
    c ≠ q ∧ (c = 48 → i + 2 ≠ b.length - 1 ∧ ∃ d, rd b (i + 2) = some d ∧ 48 ≤ d ∧ d ≤ 55) := by
  unfold keepsEscape at hk
  by_cases hc : c = 48
  · by_cases he : i + 2 = b.length - 1
    · simp [hc, he] at hk
    · cases hd : rd b (i + 2) with
      | none => simp [hc, he, hd] at hk
      | some d =>
        simp [hc, he, hd] at hk
        refine ⟨by omega, fun _ => ⟨he, d, rfl, by omega, by omega⟩⟩
  · simp [hc] at hk
    exact ⟨by tauto, fun h => absurd h hc⟩

theorem octalValue_spec (b : Buf) (i c : Nat) (h : i + 1 < b.length - 1) :
    ∃ num n, octalValue b i c = some (num, n) ∧ 1 ≤ n ∧ i + n < b.length - 1 ∧
      (n = 1 → num = (c - 48) % 256 ∧
        ¬ (i + 2 ≠ b.length - 1 ∧ ∃ d, rd b (i + 2) = some d ∧ 48 ≤ d ∧ d ≤ 55)) := by
  unfold octalValue
  by_cases h2 : i + 2 < b.length - 1
  swap
  · exact ⟨_, 1, by simp [h2], by omega, by omega, fun _ => ⟨rfl, by omega⟩⟩
  obtain ⟨d2, hd2, -⟩ := rd_of_lt (show i + 2 < b.length by omega)
  simp only [h2, if_true, hd2, Option.some_bind]
  by_cases ho2 : 48 ≤ d2 ∧ d2 ≤ 55
  swap
  · refine ⟨_, 1, by simp [ho2], by omega, by omega, fun _ => ⟨rfl, ?_⟩⟩
    rintro ⟨-, d, hd, hd'⟩
    simp only [Option.some.injEq] at hd
    subst hd
    exact ho2 hd'
  simp only [ho2, and_self, if_true]
  split_ifs with h3
  · obtain ⟨d3, hd3, -⟩ := rd_of_lt (show i + 3 < b.length by omega)
    simp only [hd3, Option.some_bind]
    split_ifs
    · exact ⟨_, _, rfl, by omega, by omega, by omega⟩
    · exact ⟨_, _, rfl, by omega, by omega, by omega⟩
  · exact ⟨_, _, rfl, by omega, by omega, by omega⟩

theorem octalEscape_spec (q : Nat) (b : Buf) (i c : Nat) (h : i + 1 < b.length - 1)
    (hk : keepsEscape q b i c = some false) (hc : 48 ≤ c ∧ c ≤ 55) :
    ∃ b1 n, octalEscape q b i c = some (b1, n) ∧ Rewritten q b b1 i n := by
  obtain ⟨num, n, hv, hn1, hn, hone⟩ := octalValue_spec b i c h
  obtain ⟨hcq, hzero⟩ := keepsEscape_false hk
  have hlt : i + n < b.length := by omega
  unfold octalEscape
  simp only [hv, Option.some_bind, wr_of_lt _ hlt]
  obtain ⟨b2, hb2, hlen, hframe, hdanger, hplain⟩ := reescape_after_write b (i + n) num hlt
  by_cases hd : num = 0 ∨ num = 92 ∨ num = q ∨ num = 10 ∨ num = 13
  · have hlt2 : i + (n - 1) < b2.length := by omega
    refine ⟨b2.set (i + (n - 1)) 92, n - 1, by simp [hd, hb2, wr_of_lt _ hlt2], ?_⟩
    refine ⟨by simp [hlen], by omega, ?_, ?_,
      fun m hm => by rw [rd_set_ne _ (by omega), hframe m (by omega)]⟩
    · intro x hx
      rcases mem_set_cases hx with hx | rfl
      · by_cases hv : num = 0 ∨ num = 10 ∨ num = 13
        · obtain ⟨w, hw, rfl⟩ := hdanger hv
          rcases mem_set_cases hx with hx | rfl
          · exact Or.inl hx
          · exact Or.inr hw
        · rw [hplain hv] at hx
          rcases mem_set_cases hx with hx | rfl
          · exact Or.inl hx
          · exact Or.inr ⟨fun h => hv (Or.inl h), fun h => hv (Or.inr (Or.inl h)),
              fun h => hv (Or.inr (Or.inr h))⟩
      · exact Or.inr (by simp [safeByte])
    · intro hn0
      have hn1' : n = 1 := by omega
      obtain ⟨hnum, hnot⟩ := hone hn1'
      subst hn1'
      have hne0 : num ≠ 0 := by
        intro h0
        have hc48 : c = 48 := by omega
        exact hnot (hzero hc48)
      have hq : num = q := by omega
      have hv : ¬ (num = 0 ∨ num = 10 ∨ num = 13) := by omega
      have hb2' := hplain hv
      subst hb2'
      constructor
      · simpa using rd_set_eq (b := b.set (i + 1) num) (k := i) 92 (by simp; omega)
      · rw [show i + (1 - 1) = i by omega, rd_set_ne _ (by omega), rd_set_eq _ hlt, hq]
  · refine ⟨b.set (i + n) num, n, by simp [hd], ?_⟩
    refine ⟨by simp, by omega, ?_, by omega, fun m hm => rd_set_ne _ (by omega)⟩
    intro x hx
    rcases mem_set_cases hx with hx | rfl
    · exact Or.inl hx
    · exact Or.inr ⟨fun h => hd (Or.inl h), fun h => hd (by simp [h]), fun h => hd (by simp [h])⟩

theorem isLineContinuation_true {b : Buf} {i c : Nat}
    (h : isLineContinuation b i c = some true) :
    c = 10 ∨ c = 13 ∨ (c = 226 ∧ i + 3 < b.length - 1) := by
  unfold isLineContinuation at h
  by_cases h1 : c = 10 ∨ c = 13
  · rcases h1 with h1 | h1
    · exact Or.inl h1
    · exact Or.inr (Or.inl h1)
  · by_cases h2 : c = 226 ∧ i + 3 < b.length - 1
    · exact Or.inr (Or.inr h2)
    · simp [h1, h2] at h

theorem rewriteEscape_spec (q : Nat) (b : Buf) (i c : Nat) (h : i + 1 < b.length - 1)
    (hk : keepsEscape q b i c = some false) :
    ∃ r, rewriteEscape q b i c = some r ∧ ∀ b1 n, r = some (b1, n) → Rewritten q b b1 i n := by
  have keepBuf : ∀ n, 1 ≤ n → i + n ≤ b.length - 1 →
      ∀ b1 m, some (b, n) = some (b1, m) → Rewritten q b b1 i m := by
    intro n hn hw b1 m hr
    simp only [Option.some.injEq, Prod.mk.injEq] at hr
    obtain ⟨rfl, rfl⟩ := hr
    exact ⟨rfl, hw, fun x hx => Or.inl hx, by omega, fun m _ => rfl⟩
  have letter : ∀ v, safeByte v →
      ∃ r, (wr b (i + 1) v).map (fun b1 => some (b1, 1)) = some r ∧
        ∀ b1 n, r = some (b1, n) → Rewritten q b b1 i n := by
    intro v hv
    refine ⟨_, by rw [wr_of_lt _ (show i + 1 < b.length by omega)]; rfl, ?_⟩
    intro b1 n hr
    simp only [Option.some.injEq, Prod.mk.injEq] at hr
    obtain ⟨rfl, rfl⟩ := hr
    refine ⟨by simp, by omega, ?_, by omega, fun m hm => rd_set_ne _ (by omega)⟩
    intro x hx
    rcases mem_set_cases hx with hx | rfl
    · exact Or.inl hx
    · exact Or.inr hv
  unfold rewriteEscape
  obtain ⟨lc, hlc⟩ := isLineContinuation_some b i c
  simp only [hlc, Option.some_bind]
  cases lc with
  | true =>
    simp only [if_true]
    have hcases := isLineContinuation_true hlc
    by_cases hE2 : c = 226
    · simp only [hE2, if_true]
      exact ⟨_, rfl, keepBuf 4 (by omega) (by omega)⟩
    · simp only [hE2, if_false]
      by_cases hcr : c = 13 ∧ i + 2 < b.length - 1
      · obtain ⟨d, hd, -⟩ := rd_of_lt (show i + 2 < b.length by omega)
        simp only [hcr, and_self, if_true, hd, Option.some_bind]
        split_ifs
        · exact ⟨_, rfl, keepBuf 3 (by omega) (by omega)⟩
        · exact ⟨_, rfl, keepBuf 2 (by omega) (by omega)⟩
      · rw [if_neg hcr]
        exact ⟨_, rfl, keepBuf 2 (by omega) (by omega)⟩
  | false =>
    simp only [Bool.false_eq_true, if_false]
    split_ifs with hx ho ht hf hv hb
    · exact hexEscape_spec q b i
    · obtain ⟨b1, n, he, hR⟩ := octalEscape_spec q b i c h hk ho
      refine ⟨some (b1, n), by simp [he], ?_⟩
      intro b1' n' hr
      simp only [Option.some.injEq, Prod.mk.injEq] at hr
      obtain ⟨rfl, rfl⟩ := hr
      exact hR
    · exact letter 9 (by simp [safeByte])
    · exact letter 12 (by simp [safeByte])
    · exact letter 11 (by simp [safeByte])
    · exact letter 8 (by simp [safeByte])
    · exact ⟨_, rfl, keepBuf 1 (by omega) (by omega)⟩

theorem copyAt_spec (b : Buf) (j start i : Nat) (hjs : j ≤ start) (hsi : start ≤ i)
    (hi : i ≤ b.length) :
    ∃ b1, sliceOf b start i = some ((b.take i).drop start) ∧
      copyAt b j ((b.take i).drop start) = some (b1, i - start) ∧
      b1.length = b.length ∧ (∀ x ∈ b1, x ∈ b) ∧
      (∀ m, m < j ∨ i ≤ m → rd b1 m = rd b m) ∧
      b1 = b.take j ++ (b.take i).drop start ++ b.drop (j + (i - start)) := by
  have hsrc : ((b.take i).drop start).length = i - start := by
    simp [List.length_drop, List.length_take, Nat.min_eq_left hi]
  have hk : min (b.length - j) ((b.take i).drop start).length = i - start := by
    rw [hsrc]; omega
  refine ⟨b.take j ++ (b.take i).drop start ++ b.drop (j + (i - start)), ?_, ?_, ?_, ?_, ?_, rfl⟩
  · simp [sliceOf, hsi, hi]
  · unfold copyAt
    rw [if_pos (by omega)]
    simp only [hk]
    have htake : ((b.take i).drop start).take (i - start) = (b.take i).drop start :=
      List.take_of_length_le (by rw [hsrc])
    rw [htake]
  · simp only [List.length_append, List.length_take, List.length_drop]
    omega
  · intro x hx
    simp only [List.mem_append] at hx
    rcases hx with (hx | hx) | hx
    · exact List.mem_of_mem_take hx
    · exact List.mem_of_mem_take (List.mem_of_mem_drop hx)
    · exact List.mem_of_mem_drop hx
  · intro m hm
    unfold rd
    have hl : (b.take j ++ (b.take i).drop start).length = j + (i - start) := by
      simp only [List.length_append, List.length_take, List.length_drop]
      omega
    rcases hm with hm | hm
    · have hlj : m < (b.take j).length := by
        rw [List.length_take]
        omega
      rw [List.append_assoc, List.getElem?_append_left hlj, List.getElem?_take_of_lt hm]
    · rw [List.getElem?_append_right (by omega), hl, List.getElem?_drop]
      congr 1
      omega

theorem compact_spec (L : Nat) (s : ScanState) (n : Nat) (hinv : ScanInv L s)
    (hw : s.i + n ≤ L - 1) :
    ∃ s1, compact s n = some s1 ∧ ScanInv L s1 ∧ s1.i = s.i + n ∧
      (∀ x ∈ s1.b, x ∈ s.b) ∧ (∀ m, m = 0 ∨ s.i ≤ m → rd s1.b m = rd s.b m) := by
  obtain ⟨hlen, hjs, hsi, hiL, hipos, hjpos⟩ := hinv
  unfold compact
  by_cases h0 : s.start = 0
  · simp only [h0, ne_eq, not_true_eq_false, if_false]
    exact ⟨_, rfl, ⟨hlen, by simp, by simp, hw, by simp only; omega, fun _ => hipos⟩, rfl,
      fun x hx => hx, fun m _ => rfl⟩
  · obtain ⟨b1, hsl, hcp, hl1, hmem, hframe, -⟩ :=
      copyAt_spec s.b s.j s.start s.i hjs hsi (by omega)
    have hj1 := hjpos h0
    have hsl2 : sliceOf s.b s.j s.b.length = some ((s.b.take s.b.length).drop s.j) := by
      simp only [sliceOf]
      rw [if_pos ⟨by omega, le_refl _⟩]
    simp only [ne_eq, h0, not_false_eq_true, if_true, hsl, hsl2, hcp, Option.some_bind]
    refine ⟨_, rfl, ⟨by simpa [hl1] using hlen, by simp only; omega, by simp, hw,
      by simp only; omega, fun _ => by simp only; omega⟩, rfl, hmem, ?_⟩
    intro m hm
    exact hframe m (by omega)

theorem escapeStep_spec (q L : Nat) (s : ScanState) (hinv : ScanInv L s)
    (hc : s.i + 1 < s.b.length - 1) :
    ∃ s1, escapeStep q s = some s1 ∧ ScanInv L s1 ∧ scanMeasure q s1 < scanMeasure q s ∧
      (∀ x ∈ s1.b, x ∈ s.b ∨ safeByte x) ∧
      rd s1.b 0 = rd s.b 0 ∧ rd s1.b (L - 1) = rd s.b (L - 1) := by
  have hlen := hinv.len
  have hipos := hinv.ipos
  have advance : ∀ d, 1 ≤ d → d ≤ 2 →
      ScanInv L { s with i := s.i + d } ∧
        scanMeasure q { s with i := s.i + d } < scanMeasure q s ∧
        (∀ x ∈ s.b, x ∈ s.b ∨ safeByte x) ∧
        rd s.b 0 = rd s.b 0 ∧ rd s.b (L - 1) = rd s.b (L - 1) := by
    intro d hd1 hd2
    refine ⟨⟨hlen, hinv.js, le_trans hinv.si (Nat.le_add_right _ _), by simp only; omega,
      by simp only; omega, hinv.jpos⟩, ?_, fun x hx => Or.inl hx, rfl, rfl⟩
    unfold scanMeasure
    simp only
    split_ifs <;> omega
  obtain ⟨c0, hc0, -⟩ := rd_of_lt (show s.i < s.b.length by omega)
  obtain ⟨c, hc1, -⟩ := rd_of_lt (show s.i + 1 < s.b.length by omega)
  unfold escapeStep
  simp only [hc0, hc1, Option.some_bind]
  by_cases h92 : c0 = 92
  swap
  · simp only [ne_eq, h92, not_false_eq_true, if_true]
    exact ⟨_, rfl, advance 1 (by omega) (by omega)⟩
  simp only [ne_eq, h92, not_true_eq_false, if_false]
  obtain ⟨keep, hkeep, -⟩ := keepsEscape_some q s.b s.i c hc
  simp only [hkeep, Option.some_bind]
  cases keep with
  | true => exact ⟨_, rfl, advance 2 (by omega) (by omega)⟩
  | false =>
    simp only [Bool.false_eq_true, if_false]
    obtain ⟨r, hr, hR⟩ := rewriteEscape_spec q s.b s.i c hc hkeep
    simp only [hr, Option.some_bind]
    cases r with
    | none => exact ⟨_, rfl, advance 2 (by omega) (by omega)⟩
    | some p =>
      obtain ⟨b1, n⟩ := p
      obtain ⟨hl1, hwid, hbytes, hstall, hfr⟩ := hR b1 n rfl
      obtain ⟨s1, hs1, hinv1, hi1, hmem1, hframe1⟩ :=
        compact_spec L { s with b := b1 } n
          ⟨by simpa [hl1] using hlen, hinv.js, hinv.si, hinv.iL, hinv.ipos, hinv.jpos⟩
          (by simp only; omega)
      simp only at hi1 hframe1
      refine ⟨s1, hs1, hinv1, ?_, fun x hx => hbytes x (hmem1 x hx),
        by rw [hframe1 0 (Or.inl rfl), hfr 0 (by omega)],
        by rw [hframe1 (L - 1) (by omega), hfr (L - 1) (by omega)]⟩
      unfold scanMeasure
      rw [hinv1.len, hlen, hi1]
      by_cases hn : n = 0
      · obtain ⟨ha, hb⟩ := hstall hn
        subst hn
        have hcq := (keepsEscape_false hkeep).1
        rw [if_pos ⟨by rw [hframe1 _ (by omega)]; exact ha,
          by rw [hframe1 _ (by omega)]; exact hb⟩]
        rw [if_neg (by rw [hc1]; intro h; exact hcq (by simpa using h.2))]
        omega
      · split_ifs <;> omega

theorem scanLoop_spec (q L : Nat) :
    ∀ (fuel : Nat) (s : ScanState), ScanInv L s → scanMeasure q s ≤ fuel →
      ∃ s1, scanLoop q fuel s = some s1 ∧ ScanInv L s1 ∧ ¬ (s1.i + 1 < s1.b.length - 1) ∧
        (∀ x ∈ s1.b, x ∈ s.b ∨ safeByte x) ∧
        rd s1.b 0 = rd s.b 0 ∧ rd s1.b (L - 1) = rd s.b (L - 1) := by
  intro fuel
  induction fuel with
  | zero =>
    intro s hinv hm
    have hdone : ¬ (s.i + 1 < s.b.length - 1) := by
      unfold scanMeasure at hm
      omega
    exact ⟨s, by simp [scanLoop, hdone], hinv, hdone, fun x hx => Or.inl hx, rfl, rfl⟩
  | succ fuel ih =>
    intro s hinv hm
    by_cases hc : s.i + 1 < s.b.length - 1
    · obtain ⟨s1, hs1, hinv1, hdec, hbytes1, hfirst1, hlast1⟩ := escapeStep_spec q L s hinv hc
      obtain ⟨s2, hs2, hinv2, hdone, hbytes2, hfirst2, hlast2⟩ := ih s1 hinv1 (by omega)
      refine ⟨s2, by simp [scanLoop, hc, hs1, hs2], hinv2, hdone, ?_,
        hfirst2.trans hfirst1, hlast2.trans hlast1⟩
      intro x hx
      rcases hbytes2 x hx with h | h
      · exact hbytes1 x h
      · exact Or.inr h
    · exact ⟨s, by simp [scanLoop, hc], hinv, hc, fun x hx => Or.inl hx, rfl, rfl⟩

/-- More fuel does not change a result of the scan loop. -/
theorem scanLoop_fuel_mono (q : Nat) :
    ∀ (fuel : Nat) (s s1 : ScanState) (k : Nat),
      scanLoop q fuel s = some s1 → scanLoop q (fuel + k) s = some s1 := by
  intro fuel
  induction fuel with
  | zero =>
    intro s s1 k h
    by_cases hc : s.i + 1 < s.b.length - 1
    · simp [scanLoop, hc] at h
    · simp only [scanLoop, hc, if_false] at h
      cases k <;> simp [scanLoop, hc, h]
  | succ fuel ih =>
    intro s s1 k h
    rw [Nat.add_right_comm]
    by_cases hc : s.i + 1 < s.b.length - 1
    · simp only [scanLoop, hc, if_true] at h ⊢
      cases hstep : escapeStep q s with
      | none => simp [hstep] at h
      | some s2 =>
        simp only [hstep, Option.some_bind] at h ⊢
        exact ih s2 s1 k h
    · simp only [scanLoop, hc, if_false] at h ⊢
      exact h

/-- The result of `minifyString` in terms of the final state `s` of the scan
loop: the loop returns within the fuel, `s` satisfies the invariant, every byte
of its buffer is an input byte or a byte other than NUL, LF, CR, its first and
last byte are those of the input, and the result is the compacted prefix
followed by the pending run. -/
theorem minifyString_spec (b : Buf) (h3 : 3 ≤ b.length) :
    ∃ q s r, rd b 0 = some q ∧
      scanLoop q (2 * b.length) { b := b, i := 1, j := 0, start := 0 } = some s ∧
      minifyString b = some r ∧ ScanInv b.length s ∧
      (∀ x ∈ s.b, x ∈ b ∨ safeByte x) ∧
      rd s.b 0 = rd b 0 ∧ rd s.b (b.length - 1) = rd b (b.length - 1) ∧
      r = (if s.start ≠ 0 then s.b.take s.j ++ s.b.drop s.start else s.b) := by
  obtain ⟨q, hq, -⟩ := rd_of_lt (show 0 < b.length by omega)
  have hinv0 : ScanInv b.length { b := b, i := 1, j := 0, start := 0 } :=
    ⟨rfl, le_refl _, Nat.zero_le _, by simp only; omega, le_refl _, fun h => absurd rfl h⟩
  have hm0 : scanMeasure q { b := b, i := 1, j := 0, start := 0 } ≤ 2 * b.length := by
    unfold scanMeasure
    simp only
    split_ifs <;> omega
  obtain ⟨s, hs, hinv, -, hbytes, hfirst, hlast⟩ :=
    scanLoop_spec q b.length (2 * b.length) _ hinv0 hm0
  have hlen := hinv.len
  refine ⟨q, s, _, hq, hs, ?_, hinv, hbytes, hfirst, hlast, rfl⟩
  unfold minifyString minifyStringFuel
  rw [if_neg (by omega)]
  simp only [hq, hs, Option.some_bind]
  by_cases h0 : s.start = 0
  · simp [h0]
  · obtain ⟨b1, hsl, hcp, hl1, -, -, hb1⟩ :=
      copyAt_spec s.b s.j s.start s.b.length hinv.js (by have := hinv.si; have := hinv.iL; omega)
        (le_refl _)
    have hsl2 : sliceOf s.b s.j s.b.length = some ((s.b.take s.b.length).drop s.j) := by
      simp only [sliceOf]
      rw [if_pos ⟨by have := hinv.js; have := hinv.si; have := hinv.iL; omega, le_refl _⟩]
    simp only [ne_eq, h0, not_false_eq_true, if_true, hsl, hsl2, hcp, Option.some_bind]
    have hjs := hinv.js
    have hsi := hinv.si
    have hiL := hinv.iL
    simp only [sliceOf]
    rw [if_pos ⟨Nat.zero_le _, by omega⟩]
    congr 1
    rw [List.drop_zero, hb1, List.take_length, List.append_assoc]
    have hl : (s.b.take s.j ++ s.b.drop s.start).length = s.j + (s.b.length - s.start) := by
      simp only [List.length_append, List.length_take, List.length_drop]
      omega
    rw [← List.append_assoc, ← hl, List.take_left]

/-- The hexadecimal branch re-escapes a decoded NUL, LF or CR: the four bytes
`\xHH` become `\x` followed by the two-byte escape, and the width is 2. -/
theorem hexEscape_dangerous (q : Nat) (b : Buf) (i h1 h2 : Nat) (hb : i + 3 < b.length - 1)
    (r1 : rd b (i + 2) = some h1) (r2 : rd b (i + 3) = some h2)
    (x1 : isHexDigit h1 = true) (x2 : isHexDigit h2 = true)
    (hv : hexByte h1 h2 = 0 ∨ hexByte h1 h2 = 10 ∨ hexByte h1 h2 = 13) :
    hexEscape q b i =
      some (some ((b.set (i + 3) (escapeLetter (hexByte h1 h2))).set (i + 2) 92, 2)) := by
  have hlt : i + 3 < b.length := by omega
  have hlt2 : i + 2 < b.length := by omega
  unfold hexEscape
  simp only [hb, if_true, r1, r2, x1, x2, Option.some_bind, wr_of_lt _ hlt, rd_set_eq _ hlt]
  rw [if_pos (by omega)]
  rcases hv with h | h | h <;>
    simp [h, reescape, escapeLetter, wr, hlt, hlt2]

/-- The octal branch re-escapes a decoded NUL, LF or CR: the last two bytes of
the escape become the two-byte escape, and the width shrinks by one. -/
theorem octalEscape_dangerous (q : Nat) (b : Buf) (i c num n : Nat)
    (hv : octalValue b i c = some (num, n)) (hn : 1 ≤ n) (hlt : i + n < b.length)
    (hd : num = 0 ∨ num = 10 ∨ num = 13) :
    octalEscape q b i c =
      some ((b.set (i + n) (escapeLetter num)).set (i + (n - 1)) 92, n - 1) := by
  have hlt2 : i + (n - 1) < b.length := by omega
  unfold octalEscape
  simp only [hv, Option.some_bind, wr_of_lt _ hlt]
  rw [if_pos (by omega)]
  rcases hd with h | h | h <;>
    simp [h, reescape, escapeLetter, wr, hlt, hlt2]

/-! ## What the scan has emitted -/

theorem take_eq_of_rd {b b1 : Buf} {i : Nat}
    (h : ∀ m, m < i → rd b1 m = rd b m) : b1.take i = b.take i := by
  apply List.ext_getElem?
  intro m
  rw [List.getElem?_take, List.getElem?_take]
  split_ifs with hm
  · exact h m hm
  · rfl

theorem committed_congr {b b1 : Buf} {i j start : Nat} (hji : j ≤ i)
    (h : b1.take i = b.take i) :
    committed { b := b1, i := i, j := j, start := start } =
      committed { b := b, i := i, j := j, start := start } := by
  have hj : b1.take j = b.take j := by
    have h1 : (b1.take i).take j = (b.take i).take j := by rw [h]
    rwa [List.take_take, List.take_take, Nat.min_eq_left hji] at h1
  simp only [committed, h, hj]

/-- Moving the read cursor forward over `d` bytes appends them to the emitted
bytes. -/
theorem committed_advance (s : ScanState) (d : Nat) (hsi : s.start ≤ s.i)
    (hi : s.i ≤ s.b.length) :
    committed { s with i := s.i + d } = committed s ++ (s.b.drop s.i).take d := by
  simp only [committed]
  split_ifs with h0
  · rw [List.take_add, List.drop_append_of_le_length (by rw [List.length_take]; omega),
      List.append_assoc]
  · rw [List.take_add]

/-- The compaction does not change the emitted bytes. -/
theorem committed_compact (L : Nat) (s s1 : ScanState) (n : Nat) (hinv : ScanInv L s)
    (h : compact s n = some s1) : committed s1 = committed s := by
  obtain ⟨hlen, hjs, hsi, hiL, hipos, hjpos⟩ := hinv
  unfold compact at h
  by_cases h0 : s.start = 0
  · simp only [h0, ne_eq, not_true_eq_false, if_false, Option.some.injEq] at h
    subst h
    simp only [committed, h0, ne_eq, not_true_eq_false, if_false]
    rw [if_pos (by omega), List.drop_of_length_le (by rw [List.length_take]; omega),
      List.append_nil]
  · obtain ⟨b1, hsl, hcp, hl1, -, -, hb1⟩ :=
      copyAt_spec s.b s.j s.start s.i hjs hsi (by omega)
    have hsl2 : sliceOf s.b s.j s.b.length = some ((s.b.take s.b.length).drop s.j) := by
      simp only [sliceOf]
      rw [if_pos ⟨by omega, le_refl _⟩]
    simp only [ne_eq, h0, not_false_eq_true, if_true, hsl, hsl2, hcp, Option.some_bind,
      Option.some.injEq] at h
    subst h
    simp only [committed, ne_eq, h0, not_false_eq_true, if_true]
    rw [if_pos (by omega), List.drop_of_length_le (by rw [List.length_take]; omega),
      List.append_nil, hb1]
    apply List.take_left'
    simp only [List.length_append, List.length_take, List.length_drop]
    omega

/-- One iteration of the loop only appends to the emitted bytes. -/
theorem escapeStep_committed (q L : Nat) (s s1 : ScanState) (hinv : ScanInv L s)
    (hc : s.i + 1 < s.b.length - 1) (h : escapeStep q s = some s1) :
    ∃ ext, committed s1 = committed s ++ ext := by
  have hlen := hinv.len
  have hsi := hinv.si
  have advance : ∀ d, ∃ ext, committed { s with i := s.i + d } = committed s ++ ext :=
    fun d => ⟨_, committed_advance s d hsi (by omega)⟩
  obtain ⟨c0, hc0, -⟩ := rd_of_lt (show s.i < s.b.length by omega)
  obtain ⟨c, hc1, -⟩ := rd_of_lt (show s.i + 1 < s.b.length by omega)
  unfold escapeStep at h
  simp only [hc0, hc1, Option.some_bind] at h
  by_cases h92 : c0 = 92
  swap
  · simp only [ne_eq, h92, not_false_eq_true, if_true, Option.some.injEq] at h
    subst h
    exact advance 1
  simp only [ne_eq, h92, not_true_eq_false, if_false] at h
  obtain ⟨keep, hkeep, -⟩ := keepsEscape_some q s.b s.i c hc
  simp only [hkeep, Option.some_bind] at h
  cases keep with
  | true =>
    simp only [if_true, Option.some.injEq] at h
    subst h
    exact advance 2
  | false =>
    simp only [Bool.false_eq_true, if_false] at h
    obtain ⟨r, hr, hR⟩ := rewriteEscape_spec q s.b s.i c hc hkeep
    simp only [hr, Option.some_bind] at h
    cases r with
    | none =>
      simp only [Option.some.injEq] at h
      subst h
      exact advance 2
    | some p =>
      obtain ⟨b1, n⟩ := p
      obtain ⟨hl1, -, -, -, hfr⟩ := hR b1 n rfl
      simp only at h
      have hinv1 : ScanInv L { s with b := b1 } :=
        ⟨by simpa [hl1] using hlen, hinv.js, hinv.si, hinv.iL, hinv.ipos, hinv.jpos⟩
      refine ⟨[], ?_⟩
      rw [List.append_nil, committed_compact L _ s1 n hinv1 h]
      exact committed_congr (le_trans hinv.js hinv.si)
        (take_eq_of_rd fun m hm => hfr m (Or.inl hm))

theorem scanLoop_committed (q L : Nat) :
    ∀ (fuel : Nat) (s sf : ScanState), ScanInv L s → scanLoop q fuel s = some sf →
      ∃ ext, committed sf = committed s ++ ext := by
  intro fuel
  induction fuel with
  | zero =>
    intro s sf _ h
    by_cases hc : s.i + 1 < s.b.length - 1
    · simp [scanLoop, hc] at h
    · simp only [scanLoop, hc, if_false, Option.some.injEq] at h
      subst h
      exact ⟨[], (List.append_nil _).symm⟩
  | succ fuel ih =>
    intro s sf hinv h
    by_cases hc : s.i + 1 < s.b.length - 1
    · obtain ⟨s1, hs1, hinv1, -⟩ := escapeStep_spec q L s hinv hc
      simp only [scanLoop, hc, if_true, hs1, Option.some_bind] at h
      obtain ⟨e1, he1⟩ := escapeStep_committed q L s s1 hinv hc hs1
      obtain ⟨e2, he2⟩ := ih s1 sf hinv1 h
      exact ⟨e1 ++ e2, by rw [he2, he1, List.append_assoc]⟩
    · simp only [scanLoop, hc, if_false, Option.some.injEq] at h
      subst h
      exact ⟨[], (List.append_nil _).symm⟩

theorem scanSteps_inv (q L : Nat) :
    ∀ (k : Nat) (s0 s : ScanState), ScanInv L s0 → scanSteps q k s0 = some s → ScanInv L s := by
  intro k
  induction k with
  | zero =>
    intro s0 s hinv h
    simp only [scanSteps, Option.some.injEq] at h
    subst h
    exact hinv
  | succ k ih =>
    intro s0 s hinv h
    by_cases hc : s0.i + 1 < s0.b.length - 1
    · obtain ⟨s1, hs1, hinv1, -⟩ := escapeStep_spec q L s0 hinv hc
      simp only [scanSteps, hc, if_true, hs1, Option.some_bind] at h
      exact ih s1 s hinv1 h
    · simp [scanSteps, hc] at h

/-- A state reached after `k` iterations runs to the same final state. -/
theorem scanSteps_loop (q : Nat) :
    ∀ (k : Nat) (s0 s sf : ScanState) (fuel : Nat), scanSteps q k s0 = some s →
      scanLoop q fuel s0 = some sf → ∃ f, scanLoop q f s = some sf := by
  intro k
  induction k with
  | zero =>
    intro s0 s sf fuel h hl
    simp only [scanSteps, Option.some.injEq] at h
    subst h
    exact ⟨fuel, hl⟩
  | succ k ih =>
    intro s0 s sf fuel h hl
    by_cases hc : s0.i + 1 < s0.b.length - 1
    · cases hstep : escapeStep q s0 with
      | none => simp [scanSteps, hc, hstep] at h
      | some s1 =>
        simp only [scanSteps, hc, if_true, hstep, Option.some_bind] at h
        cases fuel with
        | zero => simp [scanLoop, hc] at hl
        | succ fuel =>
          simp only [scanLoop, hc, if_true, hstep, Option.some_bind] at hl
          exact ih s1 s sf fuel h hl
    · simp [scanSteps, hc] at h

theorem scanSteps_add (q : Nat) :
    ∀ (k m : Nat) (s0 s s2 : ScanState), scanSteps q k s0 = some s →
      scanSteps q m s = some s2 → scanSteps q (k + m) s0 = some s2 := by
  intro k
  induction k with
  | zero =>
    intro m s0 s s2 h h2
    simp only [scanSteps, Option.some.injEq] at h
    subst h
    simpa using h2
  | succ k ih =>
    intro m s0 s s2 h h2
    rw [Nat.add_right_comm]
    by_cases hc : s0.i + 1 < s0.b.length - 1
    · cases hstep : escapeStep q s0 with
      | none => simp [scanSteps, hc, hstep] at h
      | some s1 =>
        simp only [scanSteps, hc, if_true, hstep, Option.some_bind] at h ⊢
        exact ih m s1 s s2 h h2
    · simp [scanSteps, hc] at h

/-- The result of `minifyString` starts with the bytes emitted in any state
the scan passes through. -/
theorem minifyString_committed (b : Buf) (h3 : 3 ≤ b.length) (q k : Nat) (s : ScanState)
    (hq : rd b 0 = some q)
    (hk : scanSteps q k { b := b, i := 1, j := 0, start := 0 } = some s) :
    ∃ r rest, minifyString b = some r ∧ r = committed s ++ rest := by
  obtain ⟨q', sf, r, hq', hs, hr, hinvf, -, -, -, hres⟩ := minifyString_spec b h3
  have hqq : q' = q := by rw [hq] at hq'; exact (Option.some.inj hq').symm
  subst hqq
  have hinv0 : ScanInv b.length { b := b, i := 1, j := 0, start := 0 } :=
    ⟨rfl, le_refl _, Nat.zero_le _, by simp only; omega, le_refl _, fun h => absurd rfl h⟩
  have hinv := scanSteps_inv q' b.length k _ s hinv0 hk
  obtain ⟨f, hf⟩ := scanSteps_loop q' k _ s sf _ hk hs
  obtain ⟨ext, hext⟩ := scanLoop_committed q' b.length f s sf hinv hf
  obtain ⟨hlen, hjs, hsi, hiL, hipos, hjpos⟩ := hinvf
  have hfin : r = committed sf ++ sf.b.drop sf.i := by
    rw [hres]
    simp only [committed]
    split_ifs with h0
    · rw [List.append_assoc]
      congr 1
      have hd : sf.b.drop sf.i = (sf.b.drop sf.start).drop (sf.i - sf.start) := by
        rw [List.drop_drop]
        congr 1
        omega
      rw [List.drop_take, hd, List.take_append_drop]
    · exact (List.take_append_drop _ _).symm
  exact ⟨r, ext ++ sf.b.drop sf.i, hr, by rw [hfin, hext, List.append_assoc]⟩

theorem drop_take_two {b : Buf} {i x y : Nat} (hx : rd b i = some x)
    (hy : rd b (i + 1) = some y) : (b.drop i).take 2 = [x, y] := by
  unfold rd at hx hy
  obtain ⟨h1, e1⟩ := List.getElem?_eq_some.mp hx
  obtain ⟨h2, e2⟩ := List.getElem?_eq_some.mp hy
  rw [List.drop_eq_getElem_cons h1, List.drop_eq_getElem_cons h2, e1, e2]
  rfl

/-- The iteration on an escape that is kept verbatim: the cursor moves over
its two bytes, which are emitted unchanged. -/
theorem escapeStep_keep (q L : Nat) (s : ScanState) (c : Nat) (hinv : ScanInv L s)
    (hc : s.i + 1 < s.b.length - 1) (r0 : rd s.b s.i = some 92)
    (r1 : rd s.b (s.i + 1) = some c) (hk : keepsEscape q s.b s.i c = some true) :
    escapeStep q s = some { s with i := s.i + 2 } ∧
      committed { s with i := s.i + 2 } = committed s ++ [92, c] := by
  constructor
  · unfold escapeStep
    simp [r0, r1, hk]
  · rw [committed_advance s 2 hinv.si (by omega), drop_take_two r0 r1]

/-- The iteration on an escape that is rewritten in place: the emitted bytes do
not change, the cursor moves by the reported width, and the buffer from the
old cursor on is the rewritten one. -/
theorem escapeStep_rewrite (q L : Nat) (s : ScanState) (c : Nat) (b1 : Buf) (n : Nat)
    (hinv : ScanInv L s) (hc : s.i + 1 < s.b.length - 1) (r0 : rd s.b s.i = some 92)
    (r1 : rd s.b (s.i + 1) = some c) (hk : keepsEscape q s.b s.i c = some false)
    (hr : rewriteEscape q s.b s.i c = some (some (b1, n))) :
    ∃ s1, escapeStep q s = some s1 ∧ ScanInv L s1 ∧ s1.i = s.i + n ∧
      committed s1 = committed s ∧ ∀ m, s.i ≤ m → rd s1.b m = rd b1 m := by
  obtain ⟨r, hr', hR⟩ := rewriteEscape_spec q s.b s.i c hc hk
  rw [hr] at hr'
  have hr'' : r = some (b1, n) := (Option.some.inj hr').symm
  obtain ⟨hl1, hwid, -, -, hfr⟩ := hR b1 n hr''
  have hlen := hinv.len
  have hinv1 : ScanInv L { s with b := b1 } :=
    ⟨by simpa [hl1] using hlen, hinv.js, hinv.si, hinv.iL, hinv.ipos, hinv.jpos⟩
  obtain ⟨s1, hs1, hinvs1, hi1, -, hframe1⟩ :=
    compact_spec L { s with b := b1 } n hinv1 (by simp only; omega)
  refine ⟨s1, ?_, hinvs1, hi1, ?_, fun m hm => hframe1 m (Or.inr hm)⟩
  · unfold escapeStep
    simp only [r0, r1, hk, hr, Option.some_bind, ne_eq, not_true_eq_false, if_false,
      Bool.false_eq_true]
    exact hs1
  · rw [committed_compact L _ s1 n hinv1 hs1]
    exact committed_congr (le_trans hinv.js hinv.si)
      (take_eq_of_rd fun m hm => hfr m (Or.inl hm))

/-- The keep test on a two-byte escape `\0`, `\n` or `\r` succeeds when, for
`\0`, the byte after it is the last byte of the buffer or no octal digit. -/
theorem keepsEscape_letter (q : Nat) (b : Buf) (i v : Nat)
    (hv : v = 10 ∨ v = 13 ∨ (v = 0 ∧ (i + 2 = b.length - 1 ∨
      ∃ d, rd b (i + 2) = some d ∧ (d < 48 ∨ 55 < d)))) :
    keepsEscape q b i (escapeLetter v) = some true := by
  unfold keepsEscape
  rcases hv with h | h | ⟨h, hn⟩
  · subst h; simp [escapeLetter]
  · subst h; simp [escapeLetter]
  · subst h
    by_cases he : i + 2 = b.length - 1
    · simp [escapeLetter, he]
    · rcases hn with hn | ⟨d, hd, hdo⟩
      · exact absurd hn he
      · simp [escapeLetter, he, hd, hdo]

/-- From a state that stands on a hexadecimal escape decoding to LF or CR, or
to NUL with no octal digit after it, two iterations of the loop (the rewrite,
then the scan of the rewritten escape) emit the two-byte escape. -/
theorem hex_danger_steps (q L : Nat) (s : ScanState) (h1 h2 : Nat) (hinv : ScanInv L s)
    (hb : s.i + 3 < s.b.length - 1) (hq : q ≠ 120) (r0 : rd s.b s.i = some 92)
    (r1 : rd s.b (s.i + 1) = some 120) (r2 : rd s.b (s.i + 2) = some h1)
    (r3 : rd s.b (s.i + 3) = some h2) (x1 : isHexDigit h1 = true)
    (x2 : isHexDigit h2 = true)
    (hv : hexByte h1 h2 = 10 ∨ hexByte h1 h2 = 13 ∨ (hexByte h1 h2 = 0 ∧
      (s.i + 4 = s.b.length - 1 ∨ ∃ d, rd s.b (s.i + 4) = some d ∧ (d < 48 ∨ 55 < d)))) :
    ∃ s2, scanSteps q 2 s = some s2 ∧
      committed s2 = committed s ++ [92, escapeLetter (hexByte h1 h2)] := by
  have hlen := hinv.len
  have hc : s.i + 1 < s.b.length - 1 := by omega
  have hv' : hexByte h1 h2 = 0 ∨ hexByte h1 h2 = 10 ∨ hexByte h1 h2 = 13 := by
    rcases hv with h | h | ⟨h, -⟩
    · exact Or.inr (Or.inl h)
    · exact Or.inr (Or.inr h)
    · exact Or.inl h
  have hk : keepsEscape q s.b s.i 120 = some false := by
    have hq' : ¬ (120 = q) := fun h => hq h.symm
    simp [keepsEscape, hq']
  have hr : rewriteEscape q s.b s.i 120 = some (some
      ((s.b.set (s.i + 3) (escapeLetter (hexByte h1 h2))).set (s.i + 2) 92, 2)) := by
    unfold rewriteEscape
    simp only [isLineContinuation, Option.some_bind]
    simp only [show ¬ ((120 : Nat) = 10 ∨ (120 : Nat) = 13) by omega, if_false,
      show ¬ ((120 : Nat) = 226 ∧ s.i + 3 < s.b.length - 1) by omega, Option.some_bind,
      Bool.false_eq_true, if_true]
    exact hexEscape_dangerous q s.b s.i h1 h2 hb r2 r3 x1 x2 hv'
  obtain ⟨s1, hs1, hinv1, hi1, hcom1, hfr1⟩ :=
    escapeStep_rewrite q L s 120 _ 2 hinv hc r0 r1 hk hr
  have hlen1 := hinv1.len
  have hlt3 : s.i + 3 < s.b.length := by omega
  have hlt2 : s.i + 2 < (s.b.set (s.i + 3) (escapeLetter (hexByte h1 h2))).length := by
    rw [List.length_set]; omega
  have q0 : rd s1.b s1.i = some 92 := by
    rw [hi1, hfr1 _ (by omega)]
    exact rd_set_eq _ hlt2
  have q1 : rd s1.b (s1.i + 1) = some (escapeLetter (hexByte h1 h2)) := by
    rw [hi1, hfr1 _ (by omega), rd_set_ne _ (by omega)]
    exact rd_set_eq _ hlt3
  have q2 : rd s1.b (s1.i + 2) = rd s.b (s.i + 4) := by
    rw [hi1, hfr1 _ (by omega), rd_set_ne _ (by omega), rd_set_ne _ (by omega)]
  have hk1 : keepsEscape q s1.b s1.i (escapeLetter (hexByte h1 h2)) = some true := by
    apply keepsEscape_letter
    rcases hv with h | h | ⟨h, hn⟩
    · exact Or.inl h
    · exact Or.inr (Or.inl h)
    · refine Or.inr (Or.inr ⟨h, ?_⟩)
      rw [q2]
      rcases hn with hn | hn
      · exact Or.inl (by omega)
      · exact Or.inr hn
  have hc1 : s1.i + 1 < s1.b.length - 1 := by omega
  obtain ⟨hs2, hcom2⟩ := escapeStep_keep q L s1 _ hinv1 hc1 q0 q1 hk1
  refine ⟨{ s1 with i := s1.i + 2 }, ?_, by rw [hcom2, hcom1]⟩
  simp only [scanSteps, hc, if_true, hs1, Option.some_bind, hc1, hs2]

/-- From a state that stands on a legacy octal escape decoding to LF or CR, or
to NUL with no octal digit after it, at most two iterations of the loop emit
the two-byte escape. -/
theorem octal_danger_steps (q L : Nat) (s : ScanState) (c v n : Nat) (hinv : ScanInv L s)
    (hc : s.i + 1 < s.b.length - 1) (r0 : rd s.b s.i = some 92)
    (r1 : rd s.b (s.i + 1) = some c) (hc48 : 48 ≤ c) (hc55 : c ≤ 55) (hcq : c ≠ q)
    (hval : octalValue s.b s.i c = some (v, n))
    (hv : v = 10 ∨ v = 13 ∨ (v = 0 ∧
      (s.i + n + 1 = s.b.length - 1 ∨ ∃ d, rd s.b (s.i + n + 1) = some d ∧ (d < 48 ∨ 55 < d)))) :
    ∃ k s2, scanSteps q k s = some s2 ∧
      committed s2 = committed s ++ [92, escapeLetter v] := by
  have hlen := hinv.len
  obtain ⟨v', n', hval', hn1, hnlt, hone⟩ := octalValue_spec s.b s.i c hc
  rw [hval] at hval'
  obtain ⟨rfl, rfl⟩ : v = v' ∧ n = n' := by
    simpa using hval'
  have hv' : v = 0 ∨ v = 10 ∨ v = 13 := by
    rcases hv with h | h | ⟨h, -⟩
    · exact Or.inr (Or.inl h)
    · exact Or.inr (Or.inr h)
    · exact Or.inl h
  by_cases hn : n = 1
  · -- a lone `\0` that is kept verbatim
    subst hn
    obtain ⟨hnum, hnot⟩ := hone rfl
    have hv0 : v = 0 := by omega
    have hc0 : c = 48 := by omega
    subst hc0
    have hk : keepsEscape q s.b s.i 48 = some true := by
      have h := keepsEscape_letter q s.b s.i 0 (Or.inr (Or.inr ⟨rfl, by
        rcases hv with h | h | ⟨-, hn⟩
        · omega
        · omega
        · exact hn⟩))
      simpa [escapeLetter] using h
    obtain ⟨hs2, hcom2⟩ := escapeStep_keep q L s 48 hinv hc r0 r1 hk
    refine ⟨1, { s with i := s.i + 2 }, ?_, ?_⟩
    · simp only [scanSteps, hc, if_true, hs2, Option.some_bind]
    · rw [hcom2, hv0]
      rfl
  · have hn2 : 2 ≤ n := by omega
    have hk : keepsEscape q s.b s.i c = some false := by
      unfold keepsEscape
      by_cases hc0 : c = 48
      · subst hc0
        have h2 : s.i + 2 < s.b.length - 1 := by omega
        obtain ⟨d, hd, -⟩ := rd_of_lt (show s.i + 2 < s.b.length by clear hv; omega)
        have hdo : 48 ≤ d ∧ d ≤ 55 := by
          unfold octalValue at hval
          simp only [h2, if_true, hd, Option.some_bind] at hval
          by_contra hcon
          rw [if_neg hcon] at hval
          simp only [Option.some.injEq, Prod.mk.injEq] at hval
          omega
        have hq' : ¬ (48 = q) := fun h => hcq h
        have hne : ¬ (s.i + 2 = s.b.length - 1) := by omega
        simp [hne, hd, hq']
        omega
      · have hq' : ¬ (c = q) := hcq
        simp [hc0, hq']
        omega
    have hlt : s.i + n < s.b.length := by clear hv; omega
    have hr : rewriteEscape q s.b s.i c = some (some
        ((s.b.set (s.i + n) (escapeLetter v)).set (s.i + (n - 1)) 92, n - 1)) := by
      unfold rewriteEscape
      simp only [isLineContinuation, Option.some_bind]
      simp only [show ¬ (c = 10 ∨ c = 13) by omega, if_false,
        show ¬ (c = 226 ∧ s.i + 3 < s.b.length - 1) by omega, Option.some_bind,
        Bool.false_eq_true, show ¬ (c = 120) by omega]
      rw [if_pos ⟨hc48, hc55⟩, octalEscape_dangerous q s.b s.i c v n hval hn1 hlt hv']
      rfl
    obtain ⟨s1, hs1, hinv1, hi1, hcom1, hfr1⟩ :=
      escapeStep_rewrite q L s c _ (n - 1) hinv hc r0 r1 hk hr
    have hlen1 := hinv1.len
    have hltn : s.i + (n - 1) < (s.b.set (s.i + n) (escapeLetter v)).length := by
      rw [List.length_set]; omega
    have q0 : rd s1.b s1.i = some 92 := by
      rw [hi1, hfr1 _ (by omega)]
      exact rd_set_eq _ hltn
    have q1 : rd s1.b (s1.i + 1) = some (escapeLetter v) := by
      rw [hi1, hfr1 _ (by omega), rd_set_ne _ (by omega),
        show s.i + (n - 1) + 1 = s.i + n by omega]
      exact rd_set_eq _ hlt
    have q2 : rd s1.b (s1.i + 2) = rd s.b (s.i + n + 1) := by
      rw [hi1, hfr1 _ (by omega), rd_set_ne _ (by omega), rd_set_ne _ (by omega)]
      congr 1
      omega
    have hk1 : keepsEscape q s1.b s1.i (escapeLetter v) = some true := by
      apply keepsEscape_letter
      rcases hv with h | h | ⟨h, hnn⟩
      · exact Or.inl h
      · exact Or.inr (Or.inl h)
      · refine Or.inr (Or.inr ⟨h, ?_⟩)
        rw [q2]
        rcases hnn with hnn | hnn
        · exact Or.inl (by omega)
        · exact Or.inr hnn
    have hc1 : s1.i + 1 < s1.b.length - 1 := by clear hv hk1; omega
    obtain ⟨hs2, hcom2⟩ := escapeStep_keep q L s1 _ hinv1 hc1 q0 q1 hk1
    refine ⟨2, { s1 with i := s1.i + 2 }, ?_, by rw [hcom2, hcom1]⟩
    simp only [scanSteps, hc, if_true, hs1, Option.some_bind, hc1, hs2]

/-! ## Lemmas about the radix converters -/

theorem wrapInt64_of_range {x : Int} (h0 : 0 ≤ x) (h1 : x < 9223372036854775808) :
    wrapInt64 x = x := by
  unfold wrapInt64
  omega

theorem digitsValue_snoc (base : Nat) (ds : Buf) (c : Nat) :
    digitsValue base (ds ++ [c]) = (c - 48) + base * digitsValue base ds := by
  simp [digitsValue, Nat.ofDigits_cons]

theorem accumulate_snoc (base : Int) (ds : Buf) (c : Nat) :
    accumulate base (ds ++ [c]) =
      wrapInt64 (wrapInt64 (accumulate base ds * base) + (((c + 256 - 48) % 256 : Nat) : Int)) := by
  simp [accumulate, List.foldl_append]

/-- For digit strings short enough that `base ^ K` fits in an `int64`, the
wrapped accumulation is the exact value of the digit string. -/
theorem accumulate_exact (base K : Nat) (hb : 2 ≤ base) (hb10 : base ≤ 10)
    (hK : base ^ K ≤ 9223372036854775808) (ds : Buf) :
    (∀ c ∈ ds, 48 ≤ c ∧ c < 48 + base) → ds.length ≤ K →
      accumulate (base : Int) ds = (digitsValue base ds : Int) ∧
        digitsValue base ds < base ^ ds.length := by
  induction ds using List.reverseRecOn with
  | nil =>
    intro _ _
    simp [accumulate, digitsValue]
  | append_singleton ds c ih =>
    intro hd hlen
    have hlen' : ds.length + 1 ≤ K := by simpa using hlen
    obtain ⟨hacc, hlt⟩ := ih (fun x hx => hd x (List.mem_append_left _ hx)) (by omega)
    have hc := hd c (by simp)
    have hpow : base ^ (ds.length + 1) ≤ 9223372036854775808 :=
      le_trans (Nat.pow_le_pow_right (by omega) hlen') hK
    have hstep : digitsValue base ds * base + (c - 48) < base ^ (ds.length + 1) := by
      have h1 : (digitsValue base ds + 1) * base ≤ base ^ ds.length * base :=
        Nat.mul_le_mul_right _ hlt
      rw [pow_succ]
      have h2 : (digitsValue base ds + 1) * base = digitsValue base ds * base + base := by ring
      omega
    have hval : digitsValue base (ds ++ [c]) = digitsValue base ds * base + (c - 48) := by
      rw [digitsValue_snoc, Nat.mul_comm]; omega
    refine ⟨?_, by rw [hval]; simpa using hstep⟩
    rw [accumulate_snoc, hacc, hval]
    have hbyte : (c + 256 - 48) % 256 = c - 48 := by omega
    rw [hbyte]
    have hmul : (digitsValue base ds : Int) * (base : Int) =
        ((digitsValue base ds * base : Nat) : Int) := by push_cast; ring
    rw [hmul]
    have hA : ((digitsValue base ds * base : Nat) : Int) < 9223372036854775808 := by
      have : digitsValue base ds * base < 9223372036854775808 := by omega
      exact_mod_cast this
    rw [wrapInt64_of_range (by positivity) hA]
    have hB : ((digitsValue base ds * base : Nat) : Int) + ((c - 48 : Nat) : Int) <
        9223372036854775808 := by
      have : digitsValue base ds * base + (c - 48) < 9223372036854775808 := by omega
      exact_mod_cast this
    rw [wrapInt64_of_range (by positivity) hB]
    push_cast
    ring

theorem writeDecimal_eq : ∀ (k : Nat) (b : Buf) (v : Nat), k ≤ b.length →
    writeDecimal k b (v : Int) = some (decPad k v ++ b.drop k) := by
  intro k
  induction k with
  | zero => intro b v _; simp [writeDecimal, decPad]
  | succ k ih =>
    intro b v hk
    have hbyte : ((48 + Int.tmod (v : Int) 10) % 256).toNat = 48 + v % 10 := by
      have h := Int.ofNat_tmod v 10
      simp only [Nat.cast_ofNat] at h
      rw [← h]
      omega
    have hdiv : Int.tdiv (v : Int) 10 = ((v / 10 : Nat) : Int) := by
      have h := Int.ofNat_tdiv v 10
      simp only [Nat.cast_ofNat] at h
      exact h.symm
    have hlt : k < b.length := by omega
    simp only [writeDecimal, hbyte, hdiv, wr_of_lt _ hlt, Option.some_bind]
    rw [ih (b.set k (48 + v % 10)) (v / 10) (by simp only [List.length_set]; omega)]
    simp only [decPad, List.append_assoc, List.singleton_append, Option.some.injEq]
    congr 1
    rw [List.drop_eq_getElem_cons (by simpa using hlt), List.getElem_set_self,
      List.drop_set_of_lt _ _ (by omega)]

theorem LenInt_spec (v : Nat) (hv : v < 10000000000000000000) :
    1 ≤ LenInt (v : Int) ∧ v < 10 ^ LenInt (v : Int) ∧
      (10 ^ (LenInt (v : Int) - 1) ≤ v ∨ (v = 0 ∧ LenInt (v : Int) = 1)) := by
  have h1 : ¬ ((v : Int) = -9223372036854775808) := by omega
  have h2 : ¬ ((v : Int) < 0) := by omega
  obtain ⟨L, hL⟩ : ∃ L, LenInt (v : Int) = L := ⟨_, rfl⟩
  rw [hL]
  unfold LenInt at hL
  rw [if_neg h1] at hL
  dsimp only at hL
  rw [if_neg h2] at hL
  by_cases c1 : (v : Int) < 10
  · rw [if_pos c1] at hL
    subst hL
    exact ⟨by omega, by norm_num; omega, by norm_num; omega⟩
  rw [if_neg c1] at hL
  by_cases c2 : (v : Int) < 100
  · rw [if_pos c2] at hL
    subst hL
    exact ⟨by omega, by norm_num; omega, by norm_num; omega⟩
  rw [if_neg c2] at hL
  by_cases c3 : (v : Int) < 1000
  · rw [if_pos c3] at hL
    subst hL
    exact ⟨by omega, by norm_num; omega, by norm_num; omega⟩
  rw [if_neg c3] at hL
  by_cases c4 : (v : Int) < 10000
  · rw [if_pos c4] at hL
    subst hL
    exact ⟨by omega, by norm_num; omega, by norm_num; omega⟩
  rw [if_neg c4] at hL
  by_cases c5 : (v : Int) < 100000
  · rw [if_pos c5] at hL
    subst hL
    exact ⟨by omega, by norm_num; omega, by norm_num; omega⟩
  rw [if_neg c5] at hL
  by_cases c6 : (v : Int) < 1000000
  · rw [if_pos c6] at hL
    subst hL
    exact ⟨by omega, by norm_num; omega, by norm_num; omega⟩
  rw [if_neg c6] at hL
  by_cases c7 : (v : Int) < 10000000
  · rw [if_pos c7] at hL
    subst hL
    exact ⟨by omega, by norm_num; omega, by norm_num; omega⟩
  rw [if_neg c7] at hL
  by_cases c8 : (v : Int) < 100000000
  · rw [if_pos c8] at hL
    subst hL
    exact ⟨by omega, by norm_num; omega, by norm_num; omega⟩
  rw [if_neg c8] at hL
  by_cases c9 : (v : Int) < 1000000000
  · rw [if_pos c9] at hL
    subst hL
    exact ⟨by omega, by norm_num; omega, by norm_num; omega⟩
  rw [if_neg c9] at hL
  by_cases c10 : (v : Int) < 10000000000
  · rw [if_pos c10] at hL
    subst hL
    exact ⟨by omega, by norm_num; omega, by norm_num; omega⟩
  rw [if_neg c10] at hL
  by_cases c11 : (v : Int) < 100000000000
  · rw [if_pos c11] at hL
    subst hL
    exact ⟨by omega, by norm_num; omega, by norm_num; omega⟩
  rw [if_neg c11] at hL
  by_cases c12 : (v : Int) < 1000000000000
  · rw [if_pos c12] at hL
    subst hL
    exact ⟨by omega, by norm_num; omega, by norm_num; omega⟩
  rw [if_neg c12] at hL
  by_cases c13 : (v : Int) < 10000000000000
  · rw [if_pos c13] at hL
    subst hL
    exact ⟨by omega, by norm_num; omega, by norm_num; omega⟩
  rw [if_neg c13] at hL
  by_cases c14 : (v : Int) < 100000000000000
  · rw [if_pos c14] at hL
    subst hL
    exact ⟨by omega, by norm_num; omega, by norm_num; omega⟩
  rw [if_neg c14] at hL
  by_cases c15 : (v : Int) < 1000000000000000
  · rw [if_pos c15] at hL
    subst hL
    exact ⟨by omega, by norm_num; omega, by norm_num; omega⟩
  rw [if_neg c15] at hL
  by_cases c16 : (v : Int) < 10000000000000000
  · rw [if_pos c16] at hL
    subst hL
    exact ⟨by omega, by norm_num; omega, by norm_num; omega⟩
  rw [if_neg c16] at hL
  by_cases c17 : (v : Int) < 100000000000000000
  · rw [if_pos c17] at hL
    subst hL
    exact ⟨by omega, by norm_num; omega, by norm_num; omega⟩
  rw [if_neg c17] at hL
  by_cases c18 : (v : Int) < 1000000000000000000
  · rw [if_pos c18] at hL
    subst hL
    exact ⟨by omega, by norm_num; omega, by norm_num; omega⟩
  rw [if_neg c18] at hL
  subst hL
  exact ⟨by omega, by norm_num; omega, by norm_num; omega⟩

theorem decPad_length : ∀ (k n : Nat), (decPad k n).length = k := by
  intro k
  induction k with
  | zero => intro n; rfl
  | succ k ih => intro n; simp [decPad, ih]

theorem decimalRepr_step (n : Nat) (hn : 10 ≤ n) :
    decimalRepr n = decimalRepr (n / 10) ++ [48 + n % 10] := by
  have h0 : n ≠ 0 := by omega
  have h1 : n / 10 ≠ 0 := by omega
  unfold decimalRepr
  rw [if_neg h0, if_neg h1, Nat.digits_def' (by norm_num) (by omega)]
  simp [Nat.add_comm]

theorem decPad_eq_decimalRepr : ∀ (k n : Nat), n < 10 ^ (k + 1) →
    (10 ^ k ≤ n ∨ (n = 0 ∧ k = 0)) → decPad (k + 1) n = decimalRepr n := by
  intro k
  induction k with
  | zero =>
    intro n hn _
    have hn' : n < 10 := by simpa using hn
    by_cases h0 : n = 0
    · subst h0; simp [decPad, decimalRepr]
    · have hd : Nat.digits 10 n = [n] := Nat.digits_of_lt 10 n h0 hn'
      have hm : n % 10 = n := Nat.mod_eq_of_lt hn'
      simp [decPad, decimalRepr, h0, hd, hm, Nat.add_comm]
  | succ k ih =>
    intro n hn hlo
    have hlo' : 10 ^ (k + 1) ≤ n := by
      rcases hlo with h | ⟨-, h⟩
      · exact h
      · omega
    have hpos : 0 < 10 ^ k := Nat.pos_pow_of_pos _ (by norm_num)
    have e1 : 10 ^ (k + 1) = 10 ^ k * 10 := pow_succ 10 k
    have e2 : 10 ^ (k + 1 + 1) = 10 ^ k * 10 * 10 := by rw [pow_succ, pow_succ]
    have hdiv : n / 10 < 10 ^ (k + 1) := by
      rw [Nat.div_lt_iff_lt_mul (by norm_num)]; omega
    have hdiv' : 10 ^ k ≤ n / 10 := by
      rw [Nat.le_div_iff_mul_le (by norm_num)]; omega
    rw [decimalRepr_step n (by omega), ← ih (n / 10) hdiv (Or.inl hdiv')]
    rfl

/-- The common tail of `binaryNumber` and `octalNumber`: once the accumulated
value is the exact value `v` of the digits and `v < base ^ len`, the buffer
handed to the formatter is the canonical decimal representation of `v`. -/
theorem radix_tail (base : Nat) (hb10 : base ≤ 10) (p0 p1 : Nat) (ds : Buf) (v : Nat)
    (h1 : 1 ≤ ds.length) (hv : v < base ^ ds.length) (hv63 : v < 9223372036854775808) :
    ((sliceOf (p0 :: p1 :: ds) 0 (LenInt (v : Int))).bind fun b1 =>
        writeDecimal (LenInt (v : Int)) b1 (v : Int)) = some (decimalRepr v) ∧
      (decimalRepr v).length = LenInt (v : Int) ∧ LenInt (v : Int) ≤ ds.length := by
  obtain ⟨hL1, hLhi, hLlo⟩ := LenInt_spec v (by omega)
  obtain ⟨k, hk⟩ : ∃ k, LenInt (v : Int) = k + 1 := ⟨LenInt (v : Int) - 1, by omega⟩
  rw [hk] at hLhi hLlo ⊢
  simp only [Nat.add_sub_cancel] at hLlo
  have hfit : k + 1 ≤ ds.length := by
    rcases hLlo with h | ⟨-, h⟩
    · have h2 : 10 ^ k < 10 ^ ds.length :=
        lt_of_le_of_lt h (lt_of_lt_of_le hv (Nat.pow_le_pow_left hb10 _))
      have := (Nat.pow_lt_pow_iff_right (by norm_num : 1 < 10)).mp h2
      omega
    · omega
  have hrepr : decPad (k + 1) v = decimalRepr v :=
    decPad_eq_decimalRepr k v hLhi (by
      rcases hLlo with h | ⟨h, h'⟩
      · exact Or.inl h
      · exact Or.inr ⟨h, by omega⟩)
  have hsl : sliceOf (p0 :: p1 :: ds) 0 (k + 1) = some ((p0 :: p1 :: ds).take (k + 1)) := by
    simp only [sliceOf, List.drop_zero]
    rw [if_pos ⟨Nat.zero_le _, by simp only [List.length_cons]; omega⟩]
  have hlen : ((p0 :: p1 :: ds).take (k + 1)).length = k + 1 := by
    rw [List.length_take]
    simp only [List.length_cons]
    omega
  refine ⟨?_, ?_, hfit⟩
  · rw [hsl, Option.some_bind, writeDecimal_eq _ _ _ (by rw [hlen]), hrepr,
      List.drop_of_length_le (by rw [hlen]), List.append_nil]
  · rw [← hrepr, decPad_length]

theorem sliceOf_digits (p0 p1 : Nat) (ds : Buf) :
    sliceOf (p0 :: p1 :: ds) 2 (p0 :: p1 :: ds).length = some ds := by
  simp [sliceOf]

/-- The representation `decimalRepr` is canonical: it reads back to the number, consists of decimal
digits, and has no leading zero unless the number is zero. -/
theorem decimalRepr_canonical (v : Nat) :
    digitsValue 10 (decimalRepr v) = v ∧ (∀ c ∈ decimalRepr v, 48 ≤ c ∧ c ≤ 57) ∧
      (v ≠ 0 → (decimalRepr v).head? ≠ some 48) := by
  by_cases h0 : v = 0
  · subst h0
    simp [decimalRepr, digitsValue]
  · refine ⟨?_, ?_, ?_⟩
    · simp only [digitsValue, decimalRepr, if_neg h0, List.map_map, List.map_reverse,
        List.reverse_reverse]
      have hid : ((fun c => c - 48) ∘ fun d => d + 48) = (id : Nat → Nat) := by
        funext d; simp
      rw [hid, List.map_id, Nat.ofDigits_digits]
    · intro c hc
      simp only [decimalRepr, if_neg h0, List.mem_map, List.mem_reverse] at hc
      obtain ⟨d, hd, rfl⟩ := hc
      have := Nat.digits_lt_base (by norm_num : 1 < 10) hd
      omega
    · intro _
      have hne : Nat.digits 10 v ≠ [] := Nat.digits_ne_nil_iff_ne_zero.mpr h0
      have hlast := Nat.getLast_digit_ne_zero 10 h0
      simp only [decimalRepr, if_neg h0, List.head?_map, List.head?_reverse]
      rw [List.getLast?_eq_getLast _ hne]
      simp only [Option.map_some', ne_eq, Option.some.injEq]
      omega

/-! ## Lemmas about `isFalsy` -/

theorem peelNot_not (n : Bool) (x : IExpr) :
    peelNot n (.UnaryExpr .NotToken x) = peelNot (!n) x := by
  simp [peelNot]

theorem peelNot_group (n : Bool) (x : IExpr) : peelNot n (.GroupExpr x) = peelNot n x := by
  simp [peelNot]

/-- The initial value of `negated` only toggles the final flag; the expression
the loop stops at does not depend on it. -/
theorem peelNot_flip : ∀ (e : IExpr) (n : Bool),
    peelNot (!n) e = (!(peelNot n e).1, (peelNot n e).2) := by
  intro e
  induction e with
  | UnaryExpr op x ih =>
    intro n
    by_cases h : op = TokenType.NotToken
    · subst h
      rw [peelNot_not, peelNot_not, ih]
    · simp [peelNot, h]
  | GroupExpr x ih =>
    intro n
    rw [peelNot_group, peelNot_group, ih]
  | _ => intros; simp [peelNot]

theorem isFalsy_unknown (m : jsMinifier) (e : IExpr) (h : (isFalsy m e).2 = false) :
    isFalsy m e = (false, false) := by
  unfold isFalsy at h ⊢
  revert h
  simp only
  split
  · split_ifs <;> simp
  · split_ifs <;> simp

theorem isFalsy_group (m : jsMinifier) (e : IExpr) :
    isFalsy m (.GroupExpr e) = isFalsy m e := by
  simp only [isFalsy, peelNot_group]

theorem isFalsy_not (m : jsMinifier) (e : IExpr) :
    isFalsy m (.UnaryExpr .NotToken e) = flipVerdict (isFalsy m e) := by
  simp only [isFalsy, peelNot_not, peelNot_flip e false, flipVerdict]
  split
  · split_ifs <;> simp_all
  · split_ifs <;> simp_all

theorem flipVerdict_iterate (r : Bool × Bool) (k : Nat) :
    flipVerdict^[k] r =
      if k = 0 then r
      else if r.2 then (if k % 2 = 0 then r.1 else !r.1, true) else (false, false) := by
  induction k with
  | zero => rfl
  | succ k ih =>
    rw [Function.iterate_succ_apply', ih]
    obtain ⟨v, kn⟩ := r
    cases kn <;> cases v <;> by_cases hk : k = 0 <;>
      rcases Nat.mod_two_eq_zero_or_one k with h2 | h2 <;>
      simp [flipVerdict, hk, h2, Nat.succ_mod_two_eq_zero_iff, Nat.add_mod]

theorem isFalsy_notChain_iterate (m : jsMinifier) (e : IExpr) (k : Nat) :
    isFalsy m (notChain k e) = flipVerdict^[k] (isFalsy m e) := by
  induction k with
  | zero => rfl
  | succ k ih => rw [Function.iterate_succ_apply', ← ih, notChain, isFalsy_not]

/-! ## Lemmas about the precedence model, the boolean shapes and the statements -/

theorem exprPrec_unary (op : TokenType) (x : IExpr) :
    exprPrec (.UnaryExpr op x) = unaryOpPrecMap.get op := rfl

theorem exprPrec_binary (op : TokenType) (x y : IExpr) :
    exprPrec (.BinaryExpr op x y) = binaryOpPrecMap.get op := rfl

/-- Whatever `isTrue` accepts is known to be truthy. -/
theorem isTrue_isTruthy (m : jsMinifier) (e : IExpr) (h : isTrue m e = true) :
    isTruthy m e = (true, true) := by
  cases e with
  | LiteralExpr tt d =>
    simp only [isTrue, decide_eq_true_eq] at h
    subst h
    rfl
  | UnaryExpr op x =>
    simp only [isTrue] at h
    split_ifs at h with hop
    subst hop
    cases x with
    | LiteralExpr tt d =>
      simp only [decide_eq_true_eq] at h
      obtain ⟨rfl, hl, h0⟩ := h
      match d, hl, h0 with
      | [c], _, h0 =>
        simp only [List.getElem?_cons_zero, Option.some.injEq] at h0
        subst h0
        rfl
    | _ => simp at h
  | _ => simp [isTrue] at h

theorem isEmptyStmtList_iff (l : List IStmt) :
    isEmptyStmtList l = true ↔ ∀ c ∈ l, isEmptyStmt c = true := by
  induction l with
  | nil => simp [isEmptyStmtList]
  | cons s rest ih =>
    rw [isEmptyStmtList]
    by_cases hs : isEmptyStmt s = true
    · simp [hs, ih]
    · simp [hs]

theorem stmtLeavesList_mem (l : List IStmt) (t : IStmt) :
    t ∈ stmtLeavesList l ↔ ∃ c ∈ l, t ∈ stmtLeaves c := by
  induction l with
  | nil => simp [stmtLeavesList]
  | cons s rest ih => simp [stmtLeavesList, ih]

mutual
/-- A statement is empty exactly when each of its leaves is absent or an empty
statement. -/
theorem isEmptyStmt_leaves : ∀ (s : IStmt),
    isEmptyStmt s = true ↔ ∀ t ∈ stmtLeaves s, t = .nil ∨ t = .EmptyStmt
  | .nil => by simp [isEmptyStmt, stmtLeaves]
  | .EmptyStmt => by simp [isEmptyStmt, stmtLeaves]
  | .ReturnStmt => by simp [isEmptyStmt, stmtLeaves]
  | .ThrowStmt => by simp [isEmptyStmt, stmtLeaves]
  | .OtherStmt => by simp [isEmptyStmt, stmtLeaves]
  | .BlockStmt l => by
    rw [isEmptyStmt, stmtLeaves]
    exact isEmptyStmtList_leaves l
/-- The same for the children of a block. -/
theorem isEmptyStmtList_leaves : ∀ (l : List IStmt),
    isEmptyStmtList l = true ↔ ∀ t ∈ stmtLeavesList l, t = .nil ∨ t = .EmptyStmt
  | [] => by simp [isEmptyStmtList, stmtLeavesList]
  | s :: rest => by
    rw [isEmptyStmtList, stmtLeavesList]
    have h1 := isEmptyStmt_leaves s
    have h2 := isEmptyStmtList_leaves rest
    by_cases hs : isEmptyStmt s = true
    · simp only [hs, if_true, List.mem_append]
      rw [h2]
      constructor
      · intro h t ht
        rcases ht with ht | ht
        · exact h1.mp hs t ht
        · exact h t ht
      · intro h t ht
        exact h t (Or.inr ht)
    · simp only [hs, Bool.false_eq_true, if_false, false_iff, List.mem_append]
      intro h
      exact hs (h1.mpr fun t ht => h t (Or.inl ht))
end

/-! ## The claims about the literal compactor and the truthiness analyzer -/

/-- C1 (value preservation of `minifyString`) fails on the code. The literal
`"\0\x31"` is well formed and has the value NUL, `1`; `minifyString` keeps the
`\0` (the byte after it is a backslash), then decodes `\x31` to the digit `1`,
and returns `"\01"`, whose value is the single byte 0x01. Likewise `"\x001"`,
of value NUL, `1`, is returned as the raw byte 0x01 between the quotes: the
`\0` written for `\x00` is scanned again and read as the start of a legacy
octal escape. -/
theorem minifyString_value_changed :
    decodeLiteral [34, 92, 48, 92, 120, 51, 49, 34] = some [0, 49] ∧
      minifyString [34, 92, 48, 92, 120, 51, 49, 34] = some [34, 92, 48, 49, 34] ∧
      decodeLiteral [34, 92, 48, 49, 34] = some [1] ∧
      decodeLiteral [34, 92, 120, 48, 48, 49, 34] = some [0, 49] ∧
      minifyString [34, 92, 120, 48, 48, 49, 34] = some [34, 1, 34] ∧
      decodeLiteral [34, 1, 34] = some [1] := by
  decide

/-- C2 (idempotence of `minifyString`) fails on the code: on `"\0\x31"` the
first pass returns `"\01"`, and a second pass decodes that `\01` as a legacy
octal escape and returns the raw byte 0x01 between the quotes. -/
theorem minifyString_not_idempotent :
    minifyString [34, 92, 48, 92, 120, 51, 49, 34] = some [34, 92, 48, 49, 34] ∧
      minifyString [34, 92, 48, 49, 34] = some [34, 1, 34] ∧
      (minifyString [34, 92, 48, 92, 120, 51, 49, 34]).bind minifyString ≠
        minifyString [34, 92, 48, 92, 120, 51, 49, 34] := by
  decide

/-- C3: `minifyString` never grows its input. For every buffer the function
returns (no index or slice bound is violated and the scan loop terminates), the
result is at most as long as the input, and a buffer of fewer than 3 bytes is
returned unchanged. -/
theorem minifyString_never_grows (b : Buf) :
    ∃ r, minifyString b = some r ∧ r.length ≤ b.length ∧ (b.length < 3 → r = b) := by
  by_cases h3 : b.length < 3
  · exact ⟨b, by simp [minifyString, minifyStringFuel, h3], le_refl _, fun _ => rfl⟩
  · obtain ⟨q, s, r, -, -, hr, hinv, -, -, -, hres⟩ := minifyString_spec b (by omega)
    refine ⟨r, hr, ?_, fun h => absurd h h3⟩
    have hjs := hinv.js
    have hlen := hinv.len
    subst hres
    split_ifs
    · simp only [List.length_append, List.length_take, List.length_drop]
      omega
    · omega

/-- C4 as stated fails on the code: an escape that decodes to NUL is not
always rewritten to the two-byte escape `\0`. In `"\x001"` the escape `\x00`
decodes to NUL, and in `"\0001"` the escape `\000` does; both literals are
returned as the raw byte 0x01 between the quotes, a result without any
backslash. -/
theorem minifyString_nul_escape_not_rewritten :
    hexByte 48 48 = 0 ∧
      minifyString [34, 92, 120, 48, 48, 49, 34] = some [34, 1, 34] ∧
      octalValue [34, 92, 48, 48, 48, 49, 34] 1 48 = some (0, 3) ∧
      minifyString [34, 92, 48, 48, 48, 49, 34] = some [34, 1, 34] ∧
      ¬ (92 ∈ [34, 1, 34]) := by
  decide

/-- C4 (amended): `minifyString` never emits NUL, LF or CR raw. For every buffer
none of whose bytes is NUL (0), LF (10) or CR (13), the function returns and no
byte of the result is one of the three. And wherever the scan of a buffer `b`
(after any number `k` of iterations, in state `s`) stands on a hexadecimal
escape `\xHH` or on a legacy octal escape that decodes to LF or CR, or to NUL
when the byte after the escape is the last byte of the buffer or is not an
octal digit, the result of `minifyString b` consists of the bytes emitted so
far, then the two-byte escape `\n`, `\r` or `\0`, then the rest. (The
delimiter `q` is assumed not to be the letter `x`, respectively not the first
digit of the octal escape; otherwise the escape is an escaped delimiter.) -/
theorem minifyString_no_raw_control :
    (∀ b : Buf, (∀ x ∈ b, x ≠ 0 ∧ x ≠ 10 ∧ x ≠ 13) →
        ∃ r, minifyString b = some r ∧ ∀ x ∈ r, x ≠ 0 ∧ x ≠ 10 ∧ x ≠ 13) ∧
      (∀ (b : Buf) (q k : Nat) (s : ScanState) (h1 h2 : Nat), 3 ≤ b.length →
        rd b 0 = some q → q ≠ 120 →
        scanSteps q k { b := b, i := 1, j := 0, start := 0 } = some s →
        s.i + 3 < s.b.length - 1 →
        rd s.b s.i = some 92 → rd s.b (s.i + 1) = some 120 →
        rd s.b (s.i + 2) = some h1 → rd s.b (s.i + 3) = some h2 →
        isHexDigit h1 = true → isHexDigit h2 = true →
        (hexByte h1 h2 = 10 ∨ hexByte h1 h2 = 13 ∨ (hexByte h1 h2 = 0 ∧
          (s.i + 4 = s.b.length - 1 ∨
            ∃ d, rd s.b (s.i + 4) = some d ∧ (d < 48 ∨ 55 < d)))) →
        ∃ r rest, minifyString b = some r ∧
          r = committed s ++ [92, escapeLetter (hexByte h1 h2)] ++ rest) ∧
      (∀ (b : Buf) (q k : Nat) (s : ScanState) (c v n : Nat), 3 ≤ b.length →
        rd b 0 = some q →
        scanSteps q k { b := b, i := 1, j := 0, start := 0 } = some s →
        s.i + 1 < s.b.length - 1 →
        rd s.b s.i = some 92 → rd s.b (s.i + 1) = some c →
        48 ≤ c → c ≤ 55 → c ≠ q →
        octalValue s.b s.i c = some (v, n) →
        (v = 10 ∨ v = 13 ∨ (v = 0 ∧
          (s.i + n + 1 = s.b.length - 1 ∨
            ∃ d, rd s.b (s.i + n + 1) = some d ∧ (d < 48 ∨ 55 < d)))) →
        ∃ r rest, minifyString b = some r ∧
          r = committed s ++ [92, escapeLetter v] ++ rest) := by
  have hinv0 : ∀ b : Buf, 3 ≤ b.length →
      ScanInv b.length { b := b, i := 1, j := 0, start := 0 } := fun b h3 =>
    ⟨rfl, le_refl _, Nat.zero_le _, by simp only; omega, le_refl _, fun h => absurd rfl h⟩
  refine ⟨?_, ?_, ?_⟩
  · intro b hb
    by_cases h3 : b.length < 3
    · exact ⟨b, by simp [minifyString, minifyStringFuel, h3], hb⟩
    · obtain ⟨q, s, r, -, -, hr, -, hbytes, -, -, hres⟩ := minifyString_spec b (by omega)
      refine ⟨r, hr, ?_⟩
      have hall : ∀ x ∈ s.b, x ≠ 0 ∧ x ≠ 10 ∧ x ≠ 13 := by
        intro x hx
        rcases hbytes x hx with h | h
        · exact hb x h
        · exact h
      intro x hx
      subst hres
      split_ifs at hx
      · rcases List.mem_append.mp hx with h | h
        · exact hall x (List.mem_of_mem_take h)
        · exact hall x (List.mem_of_mem_drop h)
      · exact hall x hx
  · intro b q k s h1 h2 h3 hq hq120 hk hb r0 r1 r2 r3 x1 x2 hv
    have hinv := scanSteps_inv q b.length k _ s (hinv0 b h3) hk
    obtain ⟨s2, hs2, hcom⟩ := hex_danger_steps q b.length s h1 h2 hinv hb hq120 r0 r1 r2 r3
      x1 x2 hv
    obtain ⟨r, rest, hr, hres⟩ :=
      minifyString_committed b h3 q (k + 2) s2 hq (scanSteps_add q k 2 _ s s2 hk hs2)
    exact ⟨r, rest, hr, by rw [hres, hcom]⟩
  · intro b q k s c v n h3 hq hk hc r0 r1 hc48 hc55 hcq hval hv
    have hinv := scanSteps_inv q b.length k _ s (hinv0 b h3) hk
    obtain ⟨m, s2, hs2, hcom⟩ := octal_danger_steps q b.length s c v n hinv hc r0 r1
      hc48 hc55 hcq hval hv
    obtain ⟨r, rest, hr, hres⟩ :=
      minifyString_committed b h3 q (k + m) s2 hq (scanSteps_add q k m _ s s2 hk hs2)
    exact ⟨r, rest, hr, by rw [hres, hcom]⟩

/-- Witness of C4 (amended): the literal `"a\x0ab"` has no NUL, LF or CR and
neither has its result `"a\nb"`; after one iteration the scan stands on
`\x0a`, and the result is `"a`, then `\n`, then the rest; in `"\15"` the
scan starts on an octal escape that decodes to CR, and the result is `"`,
then `\r`, then the rest; `"\x00"`, where the closing quote follows the
escape, is returned as `"\0"`. -/
theorem minifyString_no_raw_control_witness :
    (∃ r, minifyString [34, 97, 92, 120, 48, 97, 98, 34] = some r ∧
        ∀ x ∈ r, x ≠ 0 ∧ x ≠ 10 ∧ x ≠ 13) ∧
      (∃ r rest, minifyString [34, 97, 92, 120, 48, 97, 98, 34] = some r ∧
        r = [34, 97] ++ [92, 110] ++ rest) ∧
      (∃ r rest, minifyString [34, 92, 49, 53, 34] = some r ∧
        r = [34] ++ [92, 114] ++ rest) ∧
      (∃ r rest, minifyString [34, 92, 120, 48, 48, 34] = some r ∧
        r = [34] ++ [92, 48] ++ rest) ∧
      minifyString [34, 97, 92, 120, 48, 97, 98, 34] = some [34, 97, 92, 110, 98, 34] ∧
      minifyString [34, 92, 49, 53, 34] = some [34, 92, 114, 34] ∧
      minifyString [34, 92, 120, 48, 48, 34] = some [34, 92, 48, 34] :=
  ⟨minifyString_no_raw_control.1 [34, 97, 92, 120, 48, 97, 98, 34] (by decide),
    minifyString_no_raw_control.2.1 [34, 97, 92, 120, 48, 97, 98, 34] 34 1
      { b := [34, 97, 92, 120, 48, 97, 98, 34], i := 2, j := 0, start := 0 } 48 97
      (by decide) rfl (by decide) rfl (by decide) rfl rfl rfl rfl rfl rfl
      (Or.inl (by decide)),
    minifyString_no_raw_control.2.2 [34, 92, 49, 53, 34] 34 0
      { b := [34, 92, 49, 53, 34], i := 1, j := 0, start := 0 } 49 13 2
      (by decide) rfl rfl (by decide) rfl rfl (by decide) (by decide) (by decide) rfl
      (Or.inr (Or.inl rfl)),
    minifyString_no_raw_control.2.1 [34, 92, 120, 48, 48, 34] 34 0
      { b := [34, 92, 120, 48, 48, 34], i := 1, j := 0, start := 0 } 48 48
      (by decide) rfl (by decide) rfl (by decide) rfl rfl rfl rfl rfl rfl
      (Or.inr (Or.inr ⟨by decide, Or.inl (by decide)⟩)),
    by decide, by decide, by decide⟩

/-- C5: `binaryNumber` is an exact radix change. For a buffer made of a 2-byte
prefix and `n` binary digits, `1 ≤ n ≤ 63`: the `int64` accumulation equals the
mathematical value of the digit string, which is below `2 ^ 63` (no overflow);
the buffer handed to the external formatter is the canonical decimal
representation of that value (it reads back in base 10 to the same value, most
significant digit first, without a leading zero unless the value is zero); it
is no longer than the digit string, so it fits inside the input buffer; and
`binaryNumber` returns what the formatter makes of it. -/
theorem binaryNumber_exact (Number : Buf → Int → Buf) (p0 p1 : Nat) (ds : Buf)
    (hd : ∀ c ∈ ds, c = 48 ∨ c = 49) (h1 : 1 ≤ ds.length) (h63 : ds.length ≤ 63) :
    accumulate 2 ds = (digitsValue 2 ds : Int) ∧
      digitsValue 2 ds < 2 ^ 63 ∧
      binaryDigits (p0 :: p1 :: ds) = some (decimalRepr (digitsValue 2 ds)) ∧
      digitsValue 10 (decimalRepr (digitsValue 2 ds)) = digitsValue 2 ds ∧
      (digitsValue 2 ds ≠ 0 → (decimalRepr (digitsValue 2 ds)).head? ≠ some 48) ∧
      (decimalRepr (digitsValue 2 ds)).length ≤ ds.length ∧
      binaryNumber Number (p0 :: p1 :: ds) =
        some (Number (decimalRepr (digitsValue 2 ds)) 0) := by
  obtain ⟨hacc, hlt⟩ := accumulate_exact 2 63 (by norm_num) (by norm_num) (by norm_num) ds
    (fun c hc => by rcases hd c hc with h | h <;> omega) h63
  have hacc' : accumulate 2 ds = (digitsValue 2 ds : Int) := by exact_mod_cast hacc
  have h63' : digitsValue 2 ds < 2 ^ 63 :=
    lt_of_lt_of_le hlt (Nat.pow_le_pow_right (by norm_num) h63)
  obtain ⟨htail, hlen, hfit⟩ := radix_tail 2 (by norm_num) p0 p1 ds (digitsValue 2 ds) h1 hlt
    (by simpa using h63')
  obtain ⟨hback, -, hhead⟩ := decimalRepr_canonical (digitsValue 2 ds)
  have hdig : binaryDigits (p0 :: p1 :: ds) = some (decimalRepr (digitsValue 2 ds)) := by
    unfold binaryDigits
    rw [sliceOf_digits, Option.some_bind]
    simp only [hacc']
    exact htail
  refine ⟨hacc', h63', hdig, hback, hhead, by omega, ?_⟩
  unfold binaryNumber
  rw [if_neg (by simp only [List.length_cons]; omega), hdig]
  rfl

/-- Witness of C5 on `0b1010`: the buffer handed to the formatter is `10`. -/
theorem binaryNumber_exact_witness :
    (∀ c ∈ [49, 48, 49, 48], c = 48 ∨ c = 49) ∧
      binaryDigits [48, 98, 49, 48, 49, 48] = some (decimalRepr (digitsValue 2 [49, 48, 49, 48])) ∧
      binaryDigits [48, 98, 49, 48, 49, 48] = some [49, 48] ∧
      digitsValue 2 [49, 48, 49, 48] = 10 :=
  ⟨by decide,
    (binaryNumber_exact (fun d _ => d) 48 98 [49, 48, 49, 48] (by decide) (by decide)
      (by decide)).2.2.1,
    by decide, by decide⟩

/-- C6: `octalNumber` is an exact radix change. For a buffer made of a 2-byte
prefix and `n` octal digits, `1 ≤ n ≤ 21`: the `int64` accumulation equals the
mathematical value of the digit string, which is below `2 ^ 63` (no overflow);
the buffer handed to the external formatter is the canonical decimal
representation of that value; it is no longer than the digit string, so it
fits inside the input buffer; and `octalNumber` returns what the formatter
makes of it. -/
theorem octalNumber_exact (Number : Buf → Int → Buf) (p0 p1 : Nat) (ds : Buf)
    (hd : ∀ c ∈ ds, 48 ≤ c ∧ c ≤ 55) (h1 : 1 ≤ ds.length) (h21 : ds.length ≤ 21) :
    accumulate 8 ds = (digitsValue 8 ds : Int) ∧
      digitsValue 8 ds < 2 ^ 63 ∧
      octalDigits (p0 :: p1 :: ds) = some (decimalRepr (digitsValue 8 ds)) ∧
      digitsValue 10 (decimalRepr (digitsValue 8 ds)) = digitsValue 8 ds ∧
      (digitsValue 8 ds ≠ 0 → (decimalRepr (digitsValue 8 ds)).head? ≠ some 48) ∧
      (decimalRepr (digitsValue 8 ds)).length ≤ ds.length ∧
      octalNumber Number (p0 :: p1 :: ds) =
        some (Number (decimalRepr (digitsValue 8 ds)) 0) := by
  obtain ⟨hacc, hlt⟩ := accumulate_exact 8 21 (by norm_num) (by norm_num) (by norm_num) ds
    (fun c hc => by have := hd c hc; omega) h21
  have hacc' : accumulate 8 ds = (digitsValue 8 ds : Int) := by exact_mod_cast hacc
  have h63' : digitsValue 8 ds < 2 ^ 63 :=
    lt_of_lt_of_le hlt (le_trans (Nat.pow_le_pow_right (by norm_num) h21) (by norm_num))
  obtain ⟨htail, hlen, hfit⟩ := radix_tail 8 (by norm_num) p0 p1 ds (digitsValue 8 ds) h1 hlt
    (by simpa using h63')
  obtain ⟨hback, -, hhead⟩ := decimalRepr_canonical (digitsValue 8 ds)
  have hdig : octalDigits (p0 :: p1 :: ds) = some (decimalRepr (digitsValue 8 ds)) := by
    unfold octalDigits
    rw [sliceOf_digits, Option.some_bind]
    simp only [hacc']
    exact htail
  refine ⟨hacc', h63', hdig, hback, hhead, by omega, ?_⟩
  unfold octalNumber
  rw [if_neg (by simp only [List.length_cons]; omega), hdig]
  rfl

/-- Witness of C6 on `0o17`: the buffer handed to the formatter is `15`. -/
theorem octalNumber_exact_witness :
    (∀ c ∈ [49, 55], 48 ≤ c ∧ c ≤ 55) ∧
      octalDigits [48, 111, 49, 55] = some (decimalRepr (digitsValue 8 [49, 55])) ∧
      octalDigits [48, 111, 49, 55] = some [49, 53] ∧
      digitsValue 8 [49, 55] = 15 :=
  ⟨by decide,
    (octalNumber_exact (fun d _ => d) 48 111 [49, 55] (by decide) (by decide)
      (by decide)).2.2.1,
    by decide, by decide⟩

/-- C7: the radix converters are no-ops outside their digit-count bounds:
`binaryNumber` returns `b` itself when `len(b) <= 2` or `len(b) > 65`, and
`octalNumber` returns `b` itself when `len(b) <= 2` or `len(b) > 23`, whatever
the bytes of `b` and whatever the external formatter. -/
theorem radix_noop_outside_bounds (Number : Buf → Int → Buf) (b : Buf) :
    (b.length ≤ 2 ∨ 65 < b.length → binaryNumber Number b = some b) ∧
      (b.length ≤ 2 ∨ 23 < b.length → octalNumber Number b = some b) := by
  constructor
  · intro h
    unfold binaryNumber
    rw [if_pos h]
  · intro h
    unfold octalNumber
    rw [if_pos h]

/-- Witness of C7: the prefix alone (`0b`), 64 binary digits and 22 octal digits
are returned unchanged. -/
theorem radix_noop_outside_bounds_witness :
    binaryNumber (fun _ _ => []) [48, 98] = some [48, 98] ∧
      binaryNumber (fun _ _ => []) (48 :: 98 :: List.replicate 64 49) =
        some (48 :: 98 :: List.replicate 64 49) ∧
      octalNumber (fun _ _ => []) (48 :: 111 :: List.replicate 22 55) =
        some (48 :: 111 :: List.replicate 22 55) :=
  ⟨(radix_noop_outside_bounds (fun _ _ => []) [48, 98]).1 (Or.inl (by decide)),
    (radix_noop_outside_bounds (fun _ _ => []) (48 :: 98 :: List.replicate 64 49)).1
      (Or.inr (by decide)),
    (radix_noop_outside_bounds (fun _ _ => []) (48 :: 111 :: List.replicate 22 55)).2
      (Or.inr (by decide))⟩

/-- C8 (`isFalsy` agrees with ToBoolean on numeric literals) fails on the code:
only the spellings `0`, `.0` and a radix prefix followed by the single digit
`0` are classified as falsy, every other numeric literal as truthy. The decimal
literal `0.0`, the hexadecimal literal `0x00`, the binary literal `0b00` and
the octal literal `0o00` all denote zero (the radix converters of this file
turn the last two into `0`), yet `isFalsy` answers "known, not falsy". -/
theorem isFalsy_zero_literal_truthy (m : jsMinifier) :
    isFalsy m (.LiteralExpr .DecimalToken [48, 46, 48]) = (false, true) ∧
      isFalsy m (.LiteralExpr .HexadecimalToken [48, 120, 48, 48]) = (false, true) ∧
      isFalsy m (.LiteralExpr .BinaryToken [48, 98, 48, 48]) = (false, true) ∧
      binaryDigits [48, 98, 48, 48] = some [48] ∧
      isFalsy m (.LiteralExpr .OctalToken [48, 111, 48, 48]) = (false, true) ∧
      octalDigits [48, 111, 48, 48] = some [48] ∧
      isFalsy m (.LiteralExpr .DecimalToken [48]) = (true, true) ∧
      isFalsy m (.LiteralExpr .BinaryToken [48, 98, 48]) = (true, true) :=
  ⟨rfl, rfl, rfl, by decide, rfl, by decide, rfl, rfl⟩

/-- C9 (the empty string literal is falsy) fails on the code: the data of a
string literal includes its quotes, so the empty literal `""` has two bytes,
the test `len(d) == 0` does not hold, and `isFalsy` answers "known, not falsy"
(`isTruthy`: "known, truthy"), for `''` as well. The last part of the claim
holds: the literal `"0"` is known not to be falsy. -/
theorem isFalsy_empty_string_truthy (m : jsMinifier) :
    isFalsy m (.LiteralExpr .StringToken [34, 34]) = (false, true) ∧
      isTruthy m (.LiteralExpr .StringToken [34, 34]) = (true, true) ∧
      isFalsy m (.LiteralExpr .StringToken [39, 39]) = (false, true) ∧
      isTruthy m (.LiteralExpr .StringToken [39, 39]) = (true, true) ∧
      isFalsy m (.LiteralExpr .StringToken [34, 48, 34]) = (false, true) :=
  ⟨rfl, rfl, rfl, rfl, rfl⟩

/-- C10: NOT-chain parity of `isFalsy`, for every depth. For every expression
`e` and every `k`: if `isFalsy e` is known with value `v`, then `isFalsy` of
`k` nested logical NOTs around `e` is known, with value `v` for even `k` and
`not v` for odd `k`; if `isFalsy e` is unknown, so is `isFalsy` of the chain
(both are `(false, false)`). A parenthesized group is transparent:
`isFalsy (Group e) = isFalsy e`, also for a group anywhere inside a chain. -/
theorem isFalsy_notChain_parity (m : jsMinifier) (e : IExpr) (k : Nat) :
    isFalsy m (notChain k e) =
        (if (isFalsy m e).2 then (if k % 2 = 0 then (isFalsy m e).1 else !(isFalsy m e).1, true)
          else (false, false)) ∧
      isFalsy m (.GroupExpr e) = isFalsy m e ∧
      ∀ a b : Nat, isFalsy m (notChain a (.GroupExpr (notChain b e))) =
        isFalsy m (notChain (a + b) e) := by
  refine ⟨?_, isFalsy_group m e, ?_⟩
  · rw [isFalsy_notChain_iterate, flipVerdict_iterate]
    by_cases hk : k = 0
    · subst hk
      cases h2 : (isFalsy m e).2
      · simp [isFalsy_unknown m e h2]
      · simp [← h2]
    · simp [hk]
  · intro a b
    induction a with
    | zero => simp [notChain, isFalsy_group]
    | succ a ih =>
      rw [Nat.succ_add]
      simp only [notChain, isFalsy_not, ih]

/-! ## The claims about the boolean shapes, the precedence model and the statements -/

/-- C11 (the boolean-shape recognizers never contradict the truthiness
analyzer) fails on the code. `isFalse` accepts `!<decimal>` for every decimal
literal other than the one-byte `0`, so it accepts `!.0`; `isFalsy` knows that
`.0` is zero and answers "known, not falsy" for `!.0`, and `isTruthy` answers
"known, truthy". `isFalse` also accepts `!0.0`, the negation of another zero.
The half about `isTrue` holds (`isTrue_isTruthy`). -/
theorem isFalse_contradicts_isFalsy (m : jsMinifier) :
    isFalse m (.UnaryExpr .NotToken (.LiteralExpr .DecimalToken [46, 48])) = true ∧
      isFalsy m (.UnaryExpr .NotToken (.LiteralExpr .DecimalToken [46, 48])) = (false, true) ∧
      isTruthy m (.UnaryExpr .NotToken (.LiteralExpr .DecimalToken [46, 48])) = (true, true) ∧
      isFalse m (.UnaryExpr .NotToken (.LiteralExpr .DecimalToken [48, 46, 48])) = true :=
  ⟨rfl, rfl, rfl, rfl⟩

/-- C12 as stated fails on the code: `exprPrec` of a prefix increment is
`OpUpdate`, not `OpUnary`. -/
theorem exprPrec_preIncr_not_unary :
    ¬ (exprPrec (.UnaryExpr .PreIncrToken (.VarRef 0)) = .OpUnary) := by
  decide

/-- C12 (amended): for every unary expression node, `exprPrec` returns `Update`
when the operator is a postfix or a prefix increment or decrement, and `Unary`
when the operator is any other prefix form (`!`, `~`, `typeof`, `void`,
`delete`, unary `+`, unary `-`, `await`). -/
theorem exprPrec_unary_levels (x : IExpr) :
    exprPrec (.UnaryExpr .PostIncrToken x) = .OpUpdate ∧
      exprPrec (.UnaryExpr .PostDecrToken x) = .OpUpdate ∧
      exprPrec (.UnaryExpr .PreIncrToken x) = .OpUpdate ∧
      exprPrec (.UnaryExpr .PreDecrToken x) = .OpUpdate ∧
      exprPrec (.UnaryExpr .NotToken x) = .OpUnary ∧
      exprPrec (.UnaryExpr .BitNotToken x) = .OpUnary ∧
      exprPrec (.UnaryExpr .TypeofToken x) = .OpUnary ∧
      exprPrec (.UnaryExpr .VoidToken x) = .OpUnary ∧
      exprPrec (.UnaryExpr .DeleteToken x) = .OpUnary ∧
      exprPrec (.UnaryExpr .AddToken x) = .OpUnary ∧
      exprPrec (.UnaryExpr .SubToken x) = .OpUnary ∧
      exprPrec (.UnaryExpr .AwaitToken x) = .OpUnary :=
  ⟨rfl, rfl, rfl, rfl, rfl, rfl, rfl, rfl, rfl, rfl, rfl, rfl⟩

/-- C13 as stated fails on the code: `exprPrec` of a comma expression is
`OpExpr`, not `OpAssign`. -/
theorem exprPrec_comma_not_assign :
    ¬ (exprPrec (.BinaryExpr .CommaToken (.VarRef 0) (.VarRef 1)) = .OpAssign) := by
  decide

/-- C13 (amended): `exprPrec` on binary expressions follows the ECMAScript
operator precedence. The levels are strictly ordered exponentiation >
multiplicative > additive > shift > relational (with `in` and `instanceof`) >
equality > bitwise AND > bitwise XOR > bitwise OR > logical AND > logical OR >
nullish coalescing > assignment; every assignment and compound-assignment
operator returns `Assign`; and the comma operator returns `Expr`, the lowest
level of all. -/
theorem exprPrec_binary_levels (x y : IExpr) :
    exprPrec (.BinaryExpr .ExpToken x y) = .OpExp ∧
      (∀ op ∈ [TokenType.MulToken, .DivToken, .ModToken],
        exprPrec (.BinaryExpr op x y) = .OpMul) ∧
      (∀ op ∈ [TokenType.AddToken, .SubToken], exprPrec (.BinaryExpr op x y) = .OpAdd) ∧
      (∀ op ∈ [TokenType.LtLtToken, .GtGtToken, .GtGtGtToken],
        exprPrec (.BinaryExpr op x y) = .OpShift) ∧
      (∀ op ∈ [TokenType.LtToken, .LtEqToken, .GtToken, .GtEqToken, .InToken,
          .InstanceofToken], exprPrec (.BinaryExpr op x y) = .OpCompare) ∧
      (∀ op ∈ [TokenType.EqEqToken, .NotEqToken, .EqEqEqToken, .NotEqEqToken],
        exprPrec (.BinaryExpr op x y) = .OpEquals) ∧
      exprPrec (.BinaryExpr .BitAndToken x y) = .OpBitAnd ∧
      exprPrec (.BinaryExpr .BitXorToken x y) = .OpBitXor ∧
      exprPrec (.BinaryExpr .BitOrToken x y) = .OpBitOr ∧
      exprPrec (.BinaryExpr .AndToken x y) = .OpAnd ∧
      exprPrec (.BinaryExpr .OrToken x y) = .OpOr ∧
      exprPrec (.BinaryExpr .NullishToken x y) = .OpCoalesce ∧
      (∀ op ∈ [TokenType.EqToken, .MulEqToken, .DivEqToken, .ModEqToken, .ExpEqToken,
          .AddEqToken, .SubEqToken, .LtLtEqToken, .GtGtEqToken, .GtGtGtEqToken,
          .BitAndEqToken, .BitXorEqToken, .BitOrEqToken],
        exprPrec (.BinaryExpr op x y) = .OpAssign) ∧
      exprPrec (.BinaryExpr .CommaToken x y) = .OpExpr ∧
      (OpPrec.OpExpr.rank < OpPrec.OpAssign.rank ∧
        OpPrec.OpAssign.rank < OpPrec.OpCoalesce.rank ∧
        OpPrec.OpCoalesce.rank < OpPrec.OpOr.rank ∧
        OpPrec.OpOr.rank < OpPrec.OpAnd.rank ∧
        OpPrec.OpAnd.rank < OpPrec.OpBitOr.rank ∧
        OpPrec.OpBitOr.rank < OpPrec.OpBitXor.rank ∧
        OpPrec.OpBitXor.rank < OpPrec.OpBitAnd.rank ∧
        OpPrec.OpBitAnd.rank < OpPrec.OpEquals.rank ∧
        OpPrec.OpEquals.rank < OpPrec.OpCompare.rank ∧
        OpPrec.OpCompare.rank < OpPrec.OpShift.rank ∧
        OpPrec.OpShift.rank < OpPrec.OpAdd.rank ∧
        OpPrec.OpAdd.rank < OpPrec.OpMul.rank ∧
        OpPrec.OpMul.rank < OpPrec.OpExp.rank) := by
  simp only [exprPrec_binary]
  decide

/-- Witness of C13 (amended) on `a * b`, `a in b` and `a >>>= b`. -/
theorem exprPrec_binary_levels_witness :
    exprPrec (.BinaryExpr .MulToken (.VarRef 0) (.VarRef 1)) = .OpMul ∧
      exprPrec (.BinaryExpr .InToken (.VarRef 0) (.VarRef 1)) = .OpCompare ∧
      exprPrec (.BinaryExpr .GtGtGtEqToken (.VarRef 0) (.VarRef 1)) = .OpAssign :=
  ⟨(exprPrec_binary_levels (.VarRef 0) (.VarRef 1)).2.1 .MulToken (by decide),
    (exprPrec_binary_levels (.VarRef 0) (.VarRef 1)).2.2.2.2.1 .InToken (by decide),
    (exprPrec_binary_levels (.VarRef 0) (.VarRef 1)).2.2.2.2.2.2.2.2.2.2.2.2.1
      .GtGtGtEqToken (by decide)⟩

/-- C14 as stated fails on the code: the right-operand minimum of `**` is
`OpExp`, that of `&&` is `OpAnd`, and that of `||` and of `??` is `OpOr`; none
of them is `OpAssign`. -/
theorem binaryRightPrecMap_not_all_assign :
    ¬ (binaryRightPrecMap.get .ExpToken = .OpAssign ∧
        binaryRightPrecMap.get .AndToken = .OpAssign ∧
        binaryRightPrecMap.get .OrToken = .OpAssign ∧
        binaryRightPrecMap.get .NullishToken = .OpAssign) := by
  decide

/-- C14 (amended): `binaryRightPrecMap` maps every assignment and
compound-assignment operator to the `Assign` level, exponentiation (`**`) to
`Exp`, logical AND (`&&`) to `And`, and logical OR (`||`) and nullish
coalescing (`??`) to `Or`. -/
theorem binaryRightPrecMap_levels :
    (∀ op ∈ [TokenType.EqToken, .MulEqToken, .DivEqToken, .ModEqToken, .ExpEqToken,
        .AddEqToken, .SubEqToken, .LtLtEqToken, .GtGtEqToken, .GtGtGtEqToken,
        .BitAndEqToken, .BitXorEqToken, .BitOrEqToken],
      binaryRightPrecMap.get op = .OpAssign) ∧
      binaryRightPrecMap.get .ExpToken = .OpExp ∧
      binaryRightPrecMap.get .AndToken = .OpAnd ∧
      binaryRightPrecMap.get .OrToken = .OpOr ∧
      binaryRightPrecMap.get .NullishToken = .OpOr := by
  decide

/-- Witness of C14 (amended) on `+=`. -/
theorem binaryRightPrecMap_levels_witness :
    binaryRightPrecMap.get .AddEqToken = .OpAssign :=
  binaryRightPrecMap_levels.1 .AddEqToken (by decide)

/-- C15: characterisation of `isEmptyStmt`. For every statement tree `s`,
`isEmptyStmt s` is true if and only if `s` is absent (nil), an explicit empty
statement, or a block all of whose children are recursively empty;
equivalently, if and only if no statement that is neither a block nor an empty
statement occurs in `s` at any depth of block nesting. The function is defined
by structural recursion on the tree, so it returns on every statement tree. -/
theorem isEmptyStmt_iff (s : IStmt) :
    (isEmptyStmt s = true ↔
        s = .nil ∨ s = .EmptyStmt ∨ ∃ l, s = .BlockStmt l ∧ ∀ c ∈ l, isEmptyStmt c = true) ∧
      (isEmptyStmt s = true ↔ ∀ t ∈ stmtLeaves s, t = .nil ∨ t = .EmptyStmt) := by
  refine ⟨?_, isEmptyStmt_leaves s⟩
  cases s with
  | BlockStmt l =>
    rw [isEmptyStmt, isEmptyStmtList_iff]
    constructor
    · intro h
      exact Or.inr (Or.inr ⟨l, rfl, h⟩)
    · rintro (h | h | ⟨l', h, hl⟩)
      · cases h
      · cases h
      · cases h
        exact hl
  | _ => simp [isEmptyStmt]

/-- C16: `hasReturnThrowStmt` inspects only the last child of a block. For every
statement list `l` and statement `s`, `hasReturnThrowStmt (Block (l ++ [s]))`
equals `isReturnThrowStmt s`; so a block ending in return or throw gives true,
the same block with an empty statement appended gives false, an empty block
gives false, and a block whose last child is a nested block ending in return
gives false. For a statement `s` that is not a block,
`hasReturnThrowStmt s = isReturnThrowStmt s`. -/
theorem hasReturnThrowStmt_last :
    (∀ (l : List IStmt) (s : IStmt),
        hasReturnThrowStmt (.BlockStmt (l ++ [s])) = isReturnThrowStmt s) ∧
      (∀ l : List IStmt, hasReturnThrowStmt (.BlockStmt (l ++ [.ReturnStmt])) = true ∧
        hasReturnThrowStmt (.BlockStmt (l ++ [.ThrowStmt])) = true ∧
        hasReturnThrowStmt (.BlockStmt (l ++ [.ThrowStmt] ++ [.EmptyStmt])) = false ∧
        hasReturnThrowStmt (.BlockStmt (l ++ [.BlockStmt [.ReturnStmt]])) = false) ∧
      hasReturnThrowStmt (.BlockStmt []) = false ∧
      (∀ s : IStmt, (∀ l, s ≠ .BlockStmt l) → hasReturnThrowStmt s = isReturnThrowStmt s) := by
  have hlast : ∀ (l : List IStmt) (s : IStmt),
      hasReturnThrowStmt (.BlockStmt (l ++ [s])) = isReturnThrowStmt s := by
    intro l s
    simp [hasReturnThrowStmt, isReturnThrowStmt]
  refine ⟨hlast, ?_, by decide, ?_⟩
  · intro l
    exact ⟨hlast l _, hlast l _, hlast (l ++ [.ThrowStmt]) _, hlast l _⟩
  · intro s hs
    cases s with
    | BlockStmt l => exact absurd rfl (hs l)
    | _ => rfl

/-- Witness of C16 on `{ ; throw }`, `{ throw ; }` and a lone `return`. -/
theorem hasReturnThrowStmt_last_witness :
    hasReturnThrowStmt (.BlockStmt ([.EmptyStmt] ++ [.ThrowStmt])) =
        isReturnThrowStmt .ThrowStmt ∧
      hasReturnThrowStmt (.BlockStmt ([] ++ [.ThrowStmt] ++ [.EmptyStmt])) = false ∧
      hasReturnThrowStmt .ReturnStmt = isReturnThrowStmt .ReturnStmt :=
  ⟨hasReturnThrowStmt_last.1 [.EmptyStmt] .ThrowStmt,
    (hasReturnThrowStmt_last.2.1 []).2.2.1,
    hasReturnThrowStmt_last.2.2.2 .ReturnStmt (fun l h => by cases h)⟩

/-- C17: `isEqualExpr` is a narrow identifier check. For all expressions `a` and
`b`, `isEqualExpr a b` is true if and only if, after removing at most one
enclosing parenthesized group from each side, both are identifier references
whose names are byte-identical. Consequently it is symmetric, it is false
whenever either side, after the one unwrapping, is not an identifier reference,
and in particular for a doubly parenthesized identifier. -/
theorem isEqualExpr_iff (m : jsMinifier) (a b : IExpr) :
    (isEqualExpr m a b = true ↔
        ∃ x y, ungroupOnce a = .VarRef x ∧ ungroupOnce b = .VarRef y ∧ m.Name x = m.Name y) ∧
      isEqualExpr m a b = isEqualExpr m b a ∧
      ((∀ x, ungroupOnce a ≠ .VarRef x) → isEqualExpr m a b = false) ∧
      ((∀ y, ungroupOnce b ≠ .VarRef y) → isEqualExpr m a b = false) ∧
      (∀ x, isEqualExpr m (.GroupExpr (.GroupExpr (.VarRef x))) b = false) ∧
      (∀ x, isEqualExpr m a (.GroupExpr (.GroupExpr (.VarRef x))) = false) := by
  have key : ∀ a b : IExpr, isEqualExpr m a b = true ↔
      ∃ x y, ungroupOnce a = .VarRef x ∧ ungroupOnce b = .VarRef y ∧ m.Name x = m.Name y := by
    intro a b
    unfold isEqualExpr
    split
    · rename_i x y ha hb
      simp [ha, hb]
    · rename_i hne
      simp only [Bool.false_eq_true, false_iff]
      rintro ⟨x, y, ha, hb, -⟩
      exact hne x y ha hb
  have hfalse : ∀ a b : IExpr, (¬ ∃ x y, ungroupOnce a = .VarRef x ∧
      ungroupOnce b = .VarRef y ∧ m.Name x = m.Name y) → isEqualExpr m a b = false := by
    intro a b h
    cases hv : isEqualExpr m a b
    · rfl
    · exact absurd ((key a b).mp hv) h
  refine ⟨key a b, ?_, ?_, ?_, ?_, ?_⟩
  · cases hab : isEqualExpr m a b
    · symm
      apply hfalse
      rintro ⟨x, y, hb, ha, hn⟩
      have := (key a b).mpr ⟨y, x, ha, hb, hn.symm⟩
      rw [hab] at this
      cases this
    · obtain ⟨x, y, ha, hb, hn⟩ := (key a b).mp hab
      exact ((key b a).mpr ⟨y, x, hb, ha, hn.symm⟩).symm
  · intro h
    apply hfalse
    rintro ⟨x, y, ha, -, -⟩
    exact h x ha
  · intro h
    apply hfalse
    rintro ⟨x, y, -, hb, -⟩
    exact h y hb
  · intro x
    apply hfalse
    rintro ⟨x', y, ha, -, -⟩
    cases ha
  · intro x
    apply hfalse
    rintro ⟨x', y, -, hb, -⟩
    cases hb

/-- Witness of C17: `(a)` and `a` are equal, `((a))` and `a` are not; a literal
is equal to nothing. -/
theorem isEqualExpr_iff_witness :
    isEqualExpr ⟨fun _ => [97]⟩ (.GroupExpr (.VarRef 0)) (.VarRef 1) = true ∧
      isEqualExpr ⟨fun _ => [97]⟩ (.GroupExpr (.GroupExpr (.VarRef 0))) (.VarRef 0) = false ∧
      isEqualExpr ⟨fun _ => [97]⟩ (.LiteralExpr .DecimalToken [48]) (.VarRef 0) = false :=
  ⟨((isEqualExpr_iff ⟨fun _ => [97]⟩ (.GroupExpr (.VarRef 0)) (.VarRef 1)).1).mpr
      ⟨0, 1, rfl, rfl, rfl⟩,
    (isEqualExpr_iff ⟨fun _ => [97]⟩ (.VarRef 0) (.VarRef 0)).2.2.2.2.1 0,
    (isEqualExpr_iff ⟨fun _ => [97]⟩ (.LiteralExpr .DecimalToken [48]) (.VarRef 0)).2.2.1
      (fun x h => by cases h)⟩

/-- C18: `minifyString` preserves both delimiters. For every buffer `b` the
function returns a result whose first byte is the first byte of `b` and whose
last byte is the last byte of `b` (for the empty buffer both sides have no
such byte), and for an input of at least 3 bytes the result has at least 2. -/
theorem minifyString_keeps_delimiters (b : Buf) :
    ∃ r, minifyString b = some r ∧ r.head? = b.head? ∧ r.getLast? = b.getLast? ∧
      (3 ≤ b.length → 2 ≤ r.length) := by
  by_cases h3 : b.length < 3
  · exact ⟨b, by simp [minifyString, minifyStringFuel, h3], rfl, rfl, fun h => by omega⟩
  · obtain ⟨q, s, r, -, -, hr, hinv, -, hfirst, hlast, hres⟩ := minifyString_spec b (by omega)
    obtain ⟨hlen, hjs, hsi, hiL, hipos, hjpos⟩ := hinv
    unfold rd at hfirst hlast
    refine ⟨r, hr, ?_, ?_, ?_⟩
    · rw [List.head?_eq_getElem?, List.head?_eq_getElem?, ← hfirst, hres]
      split_ifs with h0
      · have hj := hjpos h0
        have hlt : 0 < (s.b.take s.j).length := by
          rw [List.length_take]
          omega
        rw [List.getElem?_append_left hlt, List.getElem?_take_of_lt (by omega)]
      · rfl
    · rw [List.getLast?_eq_getElem?, List.getLast?_eq_getElem?, ← hlast, hres]
      split_ifs with h0
      · have hl : (s.b.take s.j ++ s.b.drop s.start).length = s.j + (s.b.length - s.start) := by
          simp only [List.length_append, List.length_take, List.length_drop]
          omega
        have hlt : (s.b.take s.j).length = s.j := by
          rw [List.length_take]
          omega
        rw [hl, List.getElem?_append_right (by omega), hlt, List.getElem?_drop]
        congr 1
        omega
      · rw [hlen]
    · intro _
      rw [hres]
      split_ifs with h0
      · have hj := hjpos h0
        simp only [List.length_append, List.length_take, List.length_drop]
        omega
      · omega

/-- C19: the operand tables never under-parenthesize relative to the operator's
own level. The three binary tables have the same operators (the same keys, in
the same order); for every such operator the left minimum and the right
minimum are each at least the operator's own level; the left minimum of
exponentiation is `Update`; and for every left-associative arithmetic, shift,
relational, equality and bitwise operator the right minimum is strictly above
the own level, so a right child on the operator's own level is below the
minimum. -/
theorem operand_tables_sound :
    binaryLeftPrecMap.keys = binaryOpPrecMap.keys ∧
      binaryRightPrecMap.keys = binaryOpPrecMap.keys ∧
      binaryOpPrecMap.keys.Nodup ∧
      (∀ op ∈ binaryOpPrecMap.keys,
        (binaryOpPrecMap.get op).rank ≤ (binaryLeftPrecMap.get op).rank ∧
          (binaryOpPrecMap.get op).rank ≤ (binaryRightPrecMap.get op).rank) ∧
      binaryLeftPrecMap.get .ExpToken = .OpUpdate ∧
      (∀ op ∈ [TokenType.MulToken, .DivToken, .ModToken, .AddToken, .SubToken, .LtLtToken,
          .GtGtToken, .GtGtGtToken, .LtToken, .LtEqToken, .GtToken, .GtEqToken, .InToken,
          .InstanceofToken, .EqEqToken, .NotEqToken, .EqEqEqToken, .NotEqEqToken,
          .BitAndToken, .BitXorToken, .BitOrToken],
        (binaryOpPrecMap.get op).rank < (binaryRightPrecMap.get op).rank ∧
          ∀ e : IExpr, exprPrec e = binaryOpPrecMap.get op →
            (exprPrec e).rank < (binaryRightPrecMap.get op).rank) := by
  refine ⟨by decide, by decide, by decide, by decide, by decide, ?_⟩
  have h : ∀ op ∈ [TokenType.MulToken, .DivToken, .ModToken, .AddToken, .SubToken, .LtLtToken,
      .GtGtToken, .GtGtGtToken, .LtToken, .LtEqToken, .GtToken, .GtEqToken, .InToken,
      .InstanceofToken, .EqEqToken, .NotEqToken, .EqEqEqToken, .NotEqEqToken,
      .BitAndToken, .BitXorToken, .BitOrToken],
      (binaryOpPrecMap.get op).rank < (binaryRightPrecMap.get op).rank := by
    decide
  intro op hop
  exact ⟨h op hop, fun e he => by rw [he]; exact h op hop⟩

/-- Witness of C19 on `a - (b - c)`: the right child `b - c` is on the level
`Add` of the operator, below the right minimum `Mul`. -/
theorem operand_tables_sound_witness :
    (binaryOpPrecMap.get .SubToken).rank ≤ (binaryLeftPrecMap.get .SubToken).rank ∧
      (exprPrec (.BinaryExpr .SubToken (.VarRef 1) (.VarRef 2))).rank <
        (binaryRightPrecMap.get .SubToken).rank :=
  ⟨(operand_tables_sound.2.2.2.1 .SubToken (by decide)).1,
    (operand_tables_sound.2.2.2.2.2 .SubToken (by decide)).2
      (.BinaryExpr .SubToken (.VarRef 1) (.VarRef 2)) rfl⟩

/-- C20: `minifyString` is total and stays inside its buffer. In the checked
model (an index, an assignment or a slice expression out of range yields
`none`) the function returns a result for every buffer, of any length and any
contents, and the result is no longer than the buffer it is a slice of; more
fuel than two units per byte changes nothing. The scan keeps an invariant
(`ScanInv`: the buffer keeps its length and `j ≤ start ≤ i ≤ len - 1`), which
holds when the loop is entered and which every iteration of the loop, from any
state that satisfies it, preserves while performing all its reads, writes and
slices in range and decreasing the variant `scanMeasure`. Malformed literals
are covered: a trailing backslash, `\x` with one hexadecimal digit, a partial
U+2028 sequence, a buffer of three backslashes and a buffer delimited by the
byte 0x01 (where an octal escape decodes to the delimiter) are shown. -/
theorem minifyString_total (b : Buf) :
    (∃ r, minifyString b = some r ∧ r.length ≤ b.length) ∧
      (∀ k, minifyStringFuel (2 * b.length + k) b = minifyString b) ∧
      (3 ≤ b.length → ScanInv b.length { b := b, i := 1, j := 0, start := 0 }) ∧
      (∀ (q : Nat) (s : ScanState), ScanInv b.length s → s.i + 1 < s.b.length - 1 →
        ∃ s1, escapeStep q s = some s1 ∧ ScanInv b.length s1 ∧
          scanMeasure q s1 < scanMeasure q s) ∧
      minifyString [34, 97, 92, 34] = some [34, 97, 92, 34] ∧
      minifyString [34, 92, 120, 52, 34] = some [34, 92, 120, 52, 34] ∧
      minifyString [34, 92, 226, 128, 34] = some [34, 226, 128, 34] ∧
      minifyString [92, 92, 92] = some [92, 92, 92] ∧
      minifyString [1, 92, 49, 1] = some [1, 92, 1, 1] := by
  refine ⟨?_, ?_, ?_, ?_, by decide, by decide, by decide, by decide, by decide⟩
  · by_cases h3 : b.length < 3
    · exact ⟨b, by simp [minifyString, minifyStringFuel, h3], le_refl _⟩
    · obtain ⟨q, s, r, -, -, hr, hinv, -, -, -, hres⟩ := minifyString_spec b (by omega)
      refine ⟨r, hr, ?_⟩
      have hjs := hinv.js
      have hlen := hinv.len
      subst hres
      split_ifs
      · simp only [List.length_append, List.length_take, List.length_drop]
        omega
      · omega
  · intro k
    by_cases h3 : b.length < 3
    · simp [minifyString, minifyStringFuel, h3]
    · obtain ⟨q, s, r, hq, hs, -, -, -, -, -, -⟩ := minifyString_spec b (by omega)
      have hs' := scanLoop_fuel_mono q _ _ _ k hs
      unfold minifyString minifyStringFuel
      simp only [h3, if_false, hq, Option.some_bind, hs, hs']
  · intro h3
    exact ⟨rfl, le_refl _, Nat.zero_le _, by simp only; omega, le_refl _, fun h => absurd rfl h⟩
  · intro q s hinv hc
    obtain ⟨s1, hs1, hinv1, hdec, -⟩ := escapeStep_spec q b.length s hinv hc
    exact ⟨s1, hs1, hinv1, hdec⟩

/-- Witness of C20 on the truncated literal `"\x4"`: the invariant holds at the
entry of the loop and the first iteration runs in range. -/
theorem minifyString_total_witness :
    ScanInv 5 { b := [34, 92, 120, 52, 34], i := 1, j := 0, start := 0 } ∧
      ∃ s1, escapeStep 34 { b := [34, 92, 120, 52, 34], i := 1, j := 0, start := 0 } = some s1 ∧
        ScanInv 5 s1 ∧
        scanMeasure 34 s1 <
          scanMeasure 34 { b := [34, 92, 120, 52, 34], i := 1, j := 0, start := 0 } :=
  ⟨(minifyString_total [34, 92, 120, 52, 34]).2.2.1 (by decide),
    (minifyString_total [34, 92, 120, 52, 34]).2.2.2.1 34
      { b := [34, 92, 120, 52, 34], i := 1, j := 0, start := 0 }
      ((minifyString_total [34, 92, 120, 52, 34]).2.2.1 (by decide)) (by decide)⟩
end Minify
